import Mathlib

/-!
Shallow embedding of `toasty/tile.py`: the TOAST tessellation, traversal and
trickle-up pyramid assembly engine.

Conventions of the embedding:

* Tile addresses (`Pos`) use `Nat` coordinates (the spec fixes them as
  non-negative integers; every reachable address in the code is non-negative).
* The requested `depth` is a Python integer, embedded as `Int` (negative
  depths are possible at the API boundary).
* Spherical points, coordinate grids and images are abstract type parameters
  (`P`, `Grid`, `Img`): the geometry primitives `mid` / `subsample`, the data
  sampler, the numpy mosaic stacking and the numeric body of `_default_merge`
  are external collaborators of the core per the spec, so they are carried as
  opaque function parameters; every claim under consideration is independent
  of their concrete values.
* The recursive generators `_postfix_corner` and `_trickle_up` are embedded as
  structurally recursive list-producing functions.  `_postfix_corner` recurses
  on the remaining level budget `(depth + 1 - n).toNat` (which is `0` exactly
  when the source guard `n > depth` fires, and drops by one from a tile to its
  children); `_trickle_up` recurses on the level `n` of the current node (the
  recursive call is on the parent, one level up, and the source returns before
  recursing when `n == 0`).  This keeps every definition kernel-computable.
-/

namespace Toasty

/-- Tile address: `Pos = namedtuple('Pos', 'n x y')` — level `n`, column `x`,
row `y`. -/
structure Pos where
  n : Nat
  x : Nat
  y : Nat
deriving DecidableEq

/-- The four spherical corner points of a tile, in source order
`(ul, ur, lr, ll)`. -/
abbrev Corners (P : Type) := P × P × P × P

/-- The traversal tuple `(pos, corners, increasing)` passed around by
`iter_corners`, `_postfix_corner` and `_div4`. -/
abbrev TileC (P : Type) := Pos × Corners P × Bool

variable {P Grid Img : Type}

/-- `_div4(pos, c, increasing)`: subdivide one tile into its four children.
The local names `tmid/rmid/bmid/lmid/cmid` are the source's `to/ri/bo/le/ce`
edge and centre midpoints. -/
def div4 (mid : P → P → P) : TileC P → List (TileC P)
  | (pos, (ul, ur, lr, ll), increasing) =>
    let tmid := mid ul ur
    let rmid := mid ur lr
    let bmid := mid lr ll
    let lmid := mid ll ul
    let cmid := if increasing then mid ll ur else mid ul lr
    [ (⟨pos.n + 1, 2 * pos.x, 2 * pos.y⟩, (ul, tmid, cmid, lmid), increasing),
      (⟨pos.n + 1, 2 * pos.x + 1, 2 * pos.y⟩, (tmid, ur, rmid, cmid), increasing),
      (⟨pos.n + 1, 2 * pos.x, 2 * pos.y + 1⟩, (lmid, cmid, bmid, ll), increasing),
      (⟨pos.n + 1, 2 * pos.x + 1, 2 * pos.y + 1⟩, (cmid, rmid, lr, bmid), increasing) ]

/-- `_parent(child)`: the parent address together with the corner
`(x mod 2, y mod 2)` of the parent that the child occupies. -/
def parent (child : Pos) : Pos × Nat × Nat :=
  (⟨child.n - 1, child.x / 2, child.y / 2⟩, child.x % 2, child.y % 2)

/-- Structural core of `_postfix_corner`: `k` is the remaining level budget
`(depth + 1 - n).toNat` of the argument tile.  Budget `0` is exactly the
source guard `n > depth` (immediate return); otherwise recurse into the four
children (whose budget is one less) and then yield the tile itself when
`n == depth or not bottom_only`. -/
def pfxGo (mid : P → P → P) (depth : Int) (bottom_only : Bool) :
    Nat → TileC P → List (TileC P)
  | 0, _ => []
  | k + 1, t =>
    (div4 mid t).flatMap (pfxGo mid depth bottom_only k)
      ++ (if ((t.1.n : Int) = depth ∨ bottom_only = false) then [t] else [])

/-- `_postfix_corner(tile, depth, bottom_only)`: yield the subtiles of `tile`
down to `depth` in post-order, restricted to the deepest level when
`bottom_only` holds. -/
def pfxCorner (mid : P → P → P) (depth : Int) (bottom_only : Bool)
    (t : TileC P) : List (TileC P) :=
  pfxGo mid depth bottom_only ((depth + 1 - (t.1.n : Int)).toNat) t

/-- The fixed `todo` list of `iter_corners`: the four level-1 root faces with
their corner tuples (`level1` in the source, whose numeric radian values are
abstracted into the parameter `level1`) and orientation flags
`[True, False, True, False]`. -/
def rootTiles (level1 : Fin 4 → Corners P) : List (TileC P) :=
  [ (⟨1, 0, 0⟩, level1 0, true),
    (⟨1, 1, 0⟩, level1 1, false),
    (⟨1, 1, 1⟩, level1 2, true),
    (⟨1, 0, 1⟩, level1 3, false) ]

/-- `iter_corners(depth, bottom_only)`: post-order traversal across the four
root faces in fixed order. -/
def iterCorners (mid : P → P → P) (level1 : Fin 4 → Corners P)
    (depth : Int) (bottom_only : Bool) : List (TileC P) :=
  (rootTiles level1).flatMap (pfxCorner mid depth bottom_only)

/-- One pending-parent entry: the partial mapping from corner positions
`(xc, yc) ∈ {0,1}²` to finished child images (a Python `dict` with at most
those four keys). -/
structure CMap (Img : Type) where
  c00 : Option Img := none
  c10 : Option Img := none
  c01 : Option Img := none
  c11 : Option Img := none
deriving DecidableEq

/-- Number of corner slots filled (Python `len(corners)`). -/
def CMap.size (m : CMap Img) : Nat :=
  (if m.c00.isSome then 1 else 0) + (if m.c10.isSome then 1 else 0)
    + (if m.c01.isSome then 1 else 0) + (if m.c11.isSome then 1 else 0)

/-- `corners[(xc, yc)] = im` for `xc, yc ∈ {0,1}` (the only values the code
produces, as `x % 2` / `y % 2`). -/
def CMap.set (m : CMap Img) (xc yc : Nat) (im : Img) : CMap Img :=
  if xc = 0 then
    (if yc = 0 then { m with c00 := some im } else { m with c01 := some im })
  else
    (if yc = 0 then { m with c10 := some im } else { m with c11 := some im })

/-- The pending-parent accumulator `parents = defaultdict(dict)`, embedded as
an association list from parent address to its corner map. -/
abbrev Accum (Img : Type) := List (Pos × CMap Img)

/-- `parents[p]` under `defaultdict(dict)` semantics: the stored map, or an
empty one when the key is absent. -/
def lookupA : Accum Img → Pos → CMap Img
  | [], _ => {}
  | (k, v) :: rest, p => if k = p then v else lookupA rest p

/-- Store `parents[p] = v`: update in place when present, append otherwise. -/
def setA : Accum Img → Pos → CMap Img → Accum Img
  | [], p, v => [(p, v)]
  | (k, w) :: rest, p, v =>
    if k = p then (p, v) :: rest else (k, w) :: setA rest p v

/-- `parents.pop(p)`: remove the entry for `p`. -/
def eraseA : Accum Img → Pos → Accum Img
  | [], _ => []
  | (k, w) :: rest, p => if k = p then rest else (k, w) :: eraseA rest p

/-- `sum(len(v) for v in parents.values())`: total pending child images. -/
def countA (a : Accum Img) : Nat := (a.map fun kv => kv.2.size).sum

/-- The `merge` argument of `iter_tiles`: `True`, `False`, or a custom
callable reducer. -/
inductive MergeArg (Img : Type) where
  | mtrue : MergeArg Img
  | mfalse : MergeArg Img
  | custom (f : Img → Img) : MergeArg Img

/-- The source's `if merge is True: merge = _default_merge` rebinding, after
which `merge` is either a callable (truthy) or `False` (falsy): embedded as
`Option`, `isSome` being truthiness. -/
def MergeArg.resolve (default_merge : Img → Img) : MergeArg Img → Option (Img → Img)
  | .mtrue => some default_merge
  | .mfalse => none
  | .custom f => some f

/-- Structural core of `_trickle_up(im, node, parents, merge, depth)`,
recursing on the level of the node (the first argument; the node is
`⟨n, x, y⟩`).  Returns the list of `(address, image)` pairs the generator
yields together with the final accumulator state.  `default_merge` is the
(abstract) numeric body of `_default_merge`, `mosaic` the
`vstack/hstack` 2×2 stacking, `mrg` the resolved merge argument. -/
def tuGo (default_merge : Img → Img) (mosaic : Img → Img → Img → Img → Img)
    (mrg : Option (Img → Img)) (depth : Int) :
    Nat → Nat → Nat → Img → Accum Img → List (Pos × Img) × Accum Img
  | 0, x, y, im, parents =>
    -- level 0: emit when `depth >= n` and return (`if n == 0: return`)
    (if depth ≥ (0 : Int) then [(⟨0, x, y⟩, im)] else [], parents)
  | n + 1, x, y, im, parents =>
    let node : Pos := ⟨n + 1, x, y⟩
    let emit : List (Pos × Img) :=
      if depth ≥ ((n + 1 : Nat) : Int) then [(node, im)] else []
    -- `if not merge and n > 1: return`
    if mrg.isNone ∧ n + 1 > 1 then (emit, parents)
    else
      let pr := parent node
      let corners := (lookupA parents pr.1).set pr.2.1 pr.2.2 im
      if corners.size < 4 then (emit, setA parents pr.1 corners)
      else
        let parents1 := eraseA (setA parents pr.1 corners) pr.1
        let ul := corners.c00.getD im
        let ur := corners.c10.getD im
        let bl := corners.c01.getD im
        let br := corners.c11.getD im
        let im2 := (mrg.getD default_merge) (mosaic ul ur bl br)
        let res := tuGo default_merge mosaic mrg depth n (x / 2) (y / 2) im2 parents1
        (emit ++ res.1, res.2)

/-- `_trickle_up` on a `Pos`-addressed node. -/
def trickleUp (default_merge : Img → Img) (mosaic : Img → Img → Img → Img → Img)
    (mrg : Option (Img → Img)) (depth : Int)
    (im : Img) (node : Pos) (parents : Accum Img) :
    List (Pos × Img) × Accum Img :=
  tuGo default_merge mosaic mrg depth node.n node.x node.y im parents

/-- The relative output path of a tile:
`os.path.join('%i' % n, '%i' % y, '%i_%i.png' % (y, x))`. -/
def tilePath (p : Pos) : String :=
  toString p.n ++ "/" ++ toString p.y ++ "/" ++ toString p.y ++ "_"
    ++ toString p.x ++ ".png"

/-- The image sampled for one traversal tile:
`l, b = subsample(c[0], c[1], c[2], c[3], 256, increasing)` followed by
`img = data_sampler(l, b)`. -/
def sampleTile (subsample : P → P → P → P → Nat → Bool → Grid × Grid)
    (data_sampler : Grid → Grid → Img) (t : TileC P) : Img :=
  let lb := subsample t.2.1.1 t.2.1.2.1 t.2.1.2.2.1 t.2.1.2.2.2 256 t.2.2
  data_sampler lb.1 lb.2

/-- The driver loop of `iter_tiles`: absorb the traversal tiles one by one,
threading the accumulator and concatenating everything `_trickle_up`
yields. -/
def absorbFold (subsample : P → P → P → P → Nat → Bool → Grid × Grid)
    (data_sampler : Grid → Grid → Img) (default_merge : Img → Img)
    (mosaic : Img → Img → Img → Img → Img)
    (mrg : Option (Img → Img)) (depth : Int) :
    List (TileC P) → Accum Img → List (Pos × Img) × Accum Img
  | [], parents => ([], parents)
  | t :: ts, parents =>
    let r := trickleUp default_merge mosaic mrg depth
      (sampleTile subsample data_sampler t) t.1 parents
    let rest := absorbFold subsample data_sampler default_merge mosaic mrg depth ts r.2
    (r.1 ++ rest.1, rest.2)

/-- The accumulator states observed after each driver step of `iter_tiles`
(the states checked by the source's `assert nparent <= 4 * max(depth, 1)`
at the entry of the next `_trickle_up` call). -/
def absorbStates (subsample : P → P → P → P → Nat → Bool → Grid × Grid)
    (data_sampler : Grid → Grid → Img) (default_merge : Img → Img)
    (mosaic : Img → Img → Img → Img → Img)
    (mrg : Option (Img → Img)) (depth : Int) :
    List (TileC P) → Accum Img → List (Accum Img)
  | [], _ => []
  | t :: ts, parents =>
    let r := trickleUp default_merge mosaic mrg depth
      (sampleTile subsample data_sampler t) t.1 parents
    r.2 :: absorbStates subsample data_sampler default_merge mosaic mrg depth ts r.2

/-- `iter_tiles(data_sampler, depth, merge)` before path formatting: the
sequence of `(address, image)` pairs it yields. -/
def iterTilesRaw (mid : P → P → P) (level1 : Fin 4 → Corners P)
    (subsample : P → P → P → P → Nat → Bool → Grid × Grid)
    (data_sampler : Grid → Grid → Img) (default_merge : Img → Img)
    (mosaic : Img → Img → Img → Img → Img)
    (depth : Int) (merge : MergeArg Img) : List (Pos × Img) :=
  let mrg := merge.resolve default_merge
  (absorbFold subsample data_sampler default_merge mosaic mrg depth
    (iterCorners mid level1 (max depth 1) mrg.isSome) []).1

/-- `iter_tiles(data_sampler, depth, merge)`: the `(path, image)` pairs. -/
def iterTiles (mid : P → P → P) (level1 : Fin 4 → Corners P)
    (subsample : P → P → P → P → Nat → Bool → Grid × Grid)
    (data_sampler : Grid → Grid → Img) (default_merge : Img → Img)
    (mosaic : Img → Img → Img → Img → Img)
    (depth : Int) (merge : MergeArg Img) : List (String × Img) :=
  (iterTilesRaw mid level1 subsample data_sampler default_merge mosaic depth merge).map
    fun e => (tilePath e.1, e.2)

/-- The accumulator states over a full `iter_tiles` run. -/
def iterTilesStates (mid : P → P → P) (level1 : Fin 4 → Corners P)
    (subsample : P → P → P → P → Nat → Bool → Grid × Grid)
    (data_sampler : Grid → Grid → Img) (default_merge : Img → Img)
    (mosaic : Img → Img → Img → Img → Img)
    (depth : Int) (merge : MergeArg Img) : List (Accum Img) :=
  let mrg := merge.resolve default_merge
  absorbStates subsample data_sampler default_merge mosaic mrg depth
    (iterCorners mid level1 (max depth 1) mrg.isSome) []

/-- `depth2tiles(depth) = (4 ** (depth + 1) - 1) // 3`. -/
def depth2tiles (depth : Nat) : Nat := (4 ^ (depth + 1) - 1) / 3

/-! ### Proof-side definitions -/

/-- `q` lies in the subtree rooted at address `p` (is `p` itself or one of its
descendants): repeated halving of `q`'s coordinates up to level `p.n` lands on
`p`. -/
def inSub (q p : Pos) : Prop :=
  p.n ≤ q.n ∧ q.x / 2 ^ (q.n - p.n) = p.x ∧ q.y / 2 ^ (q.n - p.n) = p.y

instance instDecidableInSub (q p : Pos) : Decidable (inSub q p) := by
  unfold inSub; infer_instance

/-- `q` is a strict descendant of `p`. -/
def strictDesc (q p : Pos) : Prop :=
  p.n < q.n ∧ q.x / 2 ^ (q.n - p.n) = p.x ∧ q.y / 2 ^ (q.n - p.n) = p.y

instance instDecidableStrictDesc (q p : Pos) : Decidable (strictDesc q p) := by
  unfold strictDesc; infer_instance

/-- The `i`-th child (in `_div4` order) of a tile. -/
def childT (mid : P → P → P) (t : TileC P) (i : Nat) : TileC P :=
  (div4 mid t).getD i t

/-- The singleton emission `_trickle_up` makes for a node when `depth >= n`. -/
def emitOne (depth : Int) (q : Pos) (im : Img) : List (Pos × Img) :=
  if depth ≥ (q.n : Int) then [(q, im)] else []

/-- The image the pyramid run associates to a tile whose subtree reaches `k`
levels further down: the directly sampled image for a bottom tile (`k = 0`),
otherwise the reducer applied to the 2×2 mosaic of the four children's
images. -/
def mergedGo (mid : P → P → P)
    (subsample : P → P → P → P → Nat → Bool → Grid × Grid)
    (data_sampler : Grid → Grid → Img) (default_merge : Img → Img)
    (mosaic : Img → Img → Img → Img → Img) (mrg : Option (Img → Img)) :
    Nat → TileC P → Img
  | 0, t => sampleTile subsample data_sampler t
  | k + 1, t =>
    (mrg.getD default_merge)
      (mosaic
        (mergedGo mid subsample data_sampler default_merge mosaic mrg k (childT mid t 0))
        (mergedGo mid subsample data_sampler default_merge mosaic mrg k (childT mid t 1))
        (mergedGo mid subsample data_sampler default_merge mosaic mrg k (childT mid t 2))
        (mergedGo mid subsample data_sampler default_merge mosaic mrg k (childT mid t 3)))

/-- The emissions produced strictly inside a tile's subtree while the
(merging) run processes that subtree's bottom tiles, excluding the emission
of the tile itself. -/
def predEmits (mid : P → P → P)
    (subsample : P → P → P → P → Nat → Bool → Grid × Grid)
    (data_sampler : Grid → Grid → Img) (default_merge : Img → Img)
    (mosaic : Img → Img → Img → Img → Img) (mrg : Option (Img → Img))
    (depth : Int) : Nat → TileC P → List (Pos × Img)
  | 0, _ => []
  | k + 1, t =>
    (predEmits mid subsample data_sampler default_merge mosaic mrg depth k (childT mid t 0)
        ++ emitOne depth (childT mid t 0).1
            (mergedGo mid subsample data_sampler default_merge mosaic mrg k (childT mid t 0)))
      ++ (predEmits mid subsample data_sampler default_merge mosaic mrg depth k (childT mid t 1)
        ++ emitOne depth (childT mid t 1).1
            (mergedGo mid subsample data_sampler default_merge mosaic mrg k (childT mid t 1)))
      ++ (predEmits mid subsample data_sampler default_merge mosaic mrg depth k (childT mid t 2)
        ++ emitOne depth (childT mid t 2).1
            (mergedGo mid subsample data_sampler default_merge mosaic mrg k (childT mid t 2)))
      ++ (predEmits mid subsample data_sampler default_merge mosaic mrg depth k (childT mid t 3)
        ++ emitOne depth (childT mid t 3).1
            (mergedGo mid subsample data_sampler default_merge mosaic mrg k (childT mid t 3)))

/-- The emissions of a non-merging run over a listing of tiles that never
accumulate (levels above 1): each tile within depth is emitted with its
directly sampled image. -/
def offEmits (subsample : P → P → P → P → Nat → Bool → Grid × Grid)
    (data_sampler : Grid → Grid → Img) (depth : Int) (L : List (TileC P)) :
    List (Pos × Img) :=
  L.filterMap fun q =>
    if depth ≥ (q.1.n : Int)
      then some (q.1, sampleTile subsample data_sampler q) else none

/-! ### Concrete instantiation used by witnesses and counterexamples

Points and grids are `Unit`, images are `Nat`; the external numeric
collaborators are simple arithmetic stand-ins. -/

/-- Witness instantiation of the spherical midpoint. -/
def midW : Unit → Unit → Unit := fun _ _ => ()

/-- Witness instantiation of the root-face corner table `level1`. -/
def level1W : Fin 4 → Corners Unit := fun _ => ((), (), (), ())

/-- Witness instantiation of the quadrilateral subsampler. -/
def subsampleW : Unit → Unit → Unit → Unit → Nat → Bool → Unit × Unit :=
  fun _ _ _ _ _ _ => ((), ())

/-- Witness instantiation of the data sampler (constant image `7`). -/
def dataSamplerW : Unit → Unit → Nat := fun _ _ => 7

/-- Witness instantiation of the `_default_merge` numeric body. -/
def defaultMergeW : Nat → Nat := fun x => x + 100

/-- Witness instantiation of the 2×2 mosaic stacking. -/
def mosaicW : Nat → Nat → Nat → Nat → Nat :=
  fun a b c d => a * 1000 + b * 100 + c * 10 + d

/-! ### Subtree arithmetic -/

variable {P Grid Img : Type}

theorem inSub_refl (p : Pos) : inSub p p := by
  simp [inSub]

theorem inSub_le {q p : Pos} (h : inSub q p) : p.n ≤ q.n := h.1

theorem not_inSub_of_lt {q p : Pos} (h : q.n < p.n) : ¬ inSub q p := by
  intro hs; exact absurd hs.1 (by omega)

/-- One-level transitivity: membership in a child's subtree gives membership
in the parent's subtree. -/
theorem inSub_step {q p c : Pos} (hn : c.n = p.n + 1) (hx : c.x / 2 = p.x)
    (hy : c.y / 2 = p.y) (h : inSub q c) : inSub q p := by
  obtain ⟨h1, h2, h3⟩ := h
  refine ⟨by omega, ?_, ?_⟩
  · have hd : q.n - p.n = (q.n - c.n) + 1 := by omega
    rw [hd, pow_succ, ← Nat.div_div_eq_div_mul, h2, hx]
  · have hd : q.n - p.n = (q.n - c.n) + 1 := by omega
    rw [hd, pow_succ, ← Nat.div_div_eq_div_mul, h3, hy]

/-- Unfolding of `inSub` at a literal address. -/
theorem inSub_mk {q : Pos} {n x y : Nat} :
    inSub q ⟨n, x, y⟩ ↔
      (n ≤ q.n ∧ q.x / 2 ^ (q.n - n) = x ∧ q.y / 2 ^ (q.n - n) = y) :=
  Iff.rfl

/-- Two subtree roots at the same level containing a common node are equal. -/
theorem inSub_same_level {q p p' : Pos} (h : inSub q p) (h' : inSub q p')
    (hn : p.n = p'.n) : p = p' := by
  obtain ⟨h1, h2, h3⟩ := h
  obtain ⟨h1', h2', h3'⟩ := h'
  obtain ⟨n, x, y⟩ := p
  obtain ⟨n', x', y'⟩ := p'
  simp only at hn h2 h3 h2' h3' ⊢
  subst hn
  rw [Pos.mk.injEq]
  omega

/-- A node strictly inside a subtree lies in the subtree of exactly one of
the four children (here: it lies in the subtree of at least one). -/
theorem inSub_children {q p : Pos} (h : inSub q p) (hlt : p.n < q.n) :
    inSub q ⟨p.n + 1, 2 * p.x, 2 * p.y⟩ ∨
    inSub q ⟨p.n + 1, 2 * p.x + 1, 2 * p.y⟩ ∨
    inSub q ⟨p.n + 1, 2 * p.x, 2 * p.y + 1⟩ ∨
    inSub q ⟨p.n + 1, 2 * p.x + 1, 2 * p.y + 1⟩ := by
  obtain ⟨h1, h2, h3⟩ := h
  have hd : q.n - p.n = (q.n - (p.n + 1)) + 1 := by omega
  rw [hd, pow_succ, ← Nat.div_div_eq_div_mul] at h2 h3
  set a := q.x / 2 ^ (q.n - (p.n + 1)) with ha
  set b := q.y / 2 ^ (q.n - (p.n + 1)) with hb
  have hax : a = 2 * p.x ∨ a = 2 * p.x + 1 := by omega
  have hby : b = 2 * p.y ∨ b = 2 * p.y + 1 := by omega
  rcases hax with hax | hax <;> rcases hby with hby | hby
  · exact Or.inl (inSub_mk.2 ⟨by omega, hax, hby⟩)
  · exact Or.inr (Or.inr (Or.inl (inSub_mk.2 ⟨by omega, hax, hby⟩)))
  · exact Or.inr (Or.inl (inSub_mk.2 ⟨by omega, hax, hby⟩))
  · exact Or.inr (Or.inr (Or.inr (inSub_mk.2 ⟨by omega, hax, hby⟩)))

/-! ### Subdivision lemmas -/

theorem div4_eq_children (mid : P → P → P) (t : TileC P) :
    div4 mid t = [childT mid t 0, childT mid t 1, childT mid t 2, childT mid t 3] := by
  obtain ⟨pos, ⟨ul, ur, lr, ll⟩, inc⟩ := t
  rfl

theorem childT0_pos (mid : P → P → P) (t : TileC P) :
    (childT mid t 0).1 = ⟨t.1.n + 1, 2 * t.1.x, 2 * t.1.y⟩ := by
  obtain ⟨pos, ⟨ul, ur, lr, ll⟩, inc⟩ := t; rfl

theorem childT1_pos (mid : P → P → P) (t : TileC P) :
    (childT mid t 1).1 = ⟨t.1.n + 1, 2 * t.1.x + 1, 2 * t.1.y⟩ := by
  obtain ⟨pos, ⟨ul, ur, lr, ll⟩, inc⟩ := t; rfl

theorem childT2_pos (mid : P → P → P) (t : TileC P) :
    (childT mid t 2).1 = ⟨t.1.n + 1, 2 * t.1.x, 2 * t.1.y + 1⟩ := by
  obtain ⟨pos, ⟨ul, ur, lr, ll⟩, inc⟩ := t; rfl

theorem childT3_pos (mid : P → P → P) (t : TileC P) :
    (childT mid t 3).1 = ⟨t.1.n + 1, 2 * t.1.x + 1, 2 * t.1.y + 1⟩ := by
  obtain ⟨pos, ⟨ul, ur, lr, ll⟩, inc⟩ := t; rfl

theorem childT_inc (mid : P → P → P) (t : TileC P) (i : Nat) :
    (childT mid t i).2.2 = t.2.2 := by
  obtain ⟨pos, ⟨ul, ur, lr, ll⟩, inc⟩ := t
  rcases i with _ | _ | _ | _ | i <;> rfl

theorem childT_n {mid : P → P → P} {t : TileC P} {i : Nat} (hi : i < 4) :
    (childT mid t i).1.n = t.1.n + 1 := by
  interval_cases i
  · rw [childT0_pos]
  · rw [childT1_pos]
  · rw [childT2_pos]
  · rw [childT3_pos]

/-- Membership in a child's subtree lifts to the parent's subtree. -/
theorem inSub_childT {mid : P → P → P} {t : TileC P} {q : Pos} {i : Nat}
    (hi : i < 4) (h : inSub q (childT mid t i).1) : inSub q t.1 := by
  interval_cases i
  · rw [childT0_pos] at h
    exact inSub_step (c := ⟨t.1.n + 1, 2 * t.1.x, 2 * t.1.y⟩) rfl
      (by show 2 * t.1.x / 2 = t.1.x; omega) (by show 2 * t.1.y / 2 = t.1.y; omega) h
  · rw [childT1_pos] at h
    exact inSub_step (c := ⟨t.1.n + 1, 2 * t.1.x + 1, 2 * t.1.y⟩) rfl
      (by show (2 * t.1.x + 1) / 2 = t.1.x; omega) (by show 2 * t.1.y / 2 = t.1.y; omega) h
  · rw [childT2_pos] at h
    exact inSub_step (c := ⟨t.1.n + 1, 2 * t.1.x, 2 * t.1.y + 1⟩) rfl
      (by show 2 * t.1.x / 2 = t.1.x; omega) (by show (2 * t.1.y + 1) / 2 = t.1.y; omega) h
  · rw [childT3_pos] at h
    exact inSub_step (c := ⟨t.1.n + 1, 2 * t.1.x + 1, 2 * t.1.y + 1⟩) rfl
      (by show (2 * t.1.x + 1) / 2 = t.1.x; omega) (by show (2 * t.1.y + 1) / 2 = t.1.y; omega) h

/-! ### Traversal structure lemmas -/

/-- One unfolding of the post-order generator: the four children's lists in
order, then the tile itself when the emission guard holds. -/
theorem pfxGo_succ (mid : P → P → P) (depth : Int) (b : Bool) (k : Nat) (t : TileC P) :
    pfxGo mid depth b (k + 1) t =
      pfxGo mid depth b k (childT mid t 0) ++ pfxGo mid depth b k (childT mid t 1)
        ++ pfxGo mid depth b k (childT mid t 2) ++ pfxGo mid depth b k (childT mid t 3)
        ++ (if ((t.1.n : Int) = depth ∨ b = false) then [t] else []) := by
  conv_lhs => rw [pfxGo]
  rw [div4_eq_children]
  simp [List.append_assoc]

theorem mem_pfxGo {mid : P → P → P} {depth : Int} {b : Bool} :
    ∀ {k : Nat} {t q : TileC P}, q ∈ pfxGo mid depth b k t →
      inSub q.1 t.1 ∧ q.2.2 = t.2.2 := by
  intro k
  induction k with
  | zero => intro t q hq; simp [pfxGo] at hq
  | succ k ih =>
    intro t q hq
    rw [pfxGo_succ] at hq
    simp only [List.mem_append] at hq
    rcases hq with ((((hq | hq) | hq) | hq) | hq)
    · obtain ⟨hs, ho⟩ := ih hq
      exact ⟨inSub_childT (by omega) hs, ho.trans (childT_inc mid t 0)⟩
    · obtain ⟨hs, ho⟩ := ih hq
      exact ⟨inSub_childT (by omega) hs, ho.trans (childT_inc mid t 1)⟩
    · obtain ⟨hs, ho⟩ := ih hq
      exact ⟨inSub_childT (by omega) hs, ho.trans (childT_inc mid t 2)⟩
    · obtain ⟨hs, ho⟩ := ih hq
      exact ⟨inSub_childT (by omega) hs, ho.trans (childT_inc mid t 3)⟩
    · have hqt : q = t := by
        by_cases hc : ((t.1.n : Int) = depth ∨ b = false)
        · simpa [hc] using hq
        · simp [hc] at hq
      subst hqt
      exact ⟨inSub_refl _, rfl⟩

/-- Nodes inside a subtree that coincide in level with the subtree root are
the root. -/
theorem inSub_self_level {q p : Pos} (h : inSub q p) (hn : q.n = p.n) : q = p := by
  obtain ⟨h1, h2, h3⟩ := h
  obtain ⟨n, x, y⟩ := p
  obtain ⟨n', x', y'⟩ := q
  simp only at hn h2 h3 ⊢
  subst hn
  rw [Pos.mk.injEq]
  simp only [Nat.sub_self, pow_zero, Nat.div_one] at h2 h3
  omega

/-- The gap invariant: children of a tile with budget `k + 1` have budget
`k`. -/
theorem childT_gap {mid : P → P → P} {depth : Int} {t : TileC P} {k i : Nat}
    (hi : i < 4) (hk : (depth + 1 - (t.1.n : Int)).toNat = k + 1) :
    (depth + 1 - ((childT mid t i).1.n : Int)).toNat = k := by
  rw [childT_n hi]
  omega

theorem mem_pfxGo_le {mid : P → P → P} {depth : Int} {b : Bool} :
    ∀ {k : Nat} {t q : TileC P}, (depth + 1 - (t.1.n : Int)).toNat = k →
      q ∈ pfxGo mid depth b k t →
      (q.1.n : Int) ≤ depth ∧ (b = true → (q.1.n : Int) = depth) := by
  intro k
  induction k with
  | zero => intro t q _ hq; simp [pfxGo] at hq
  | succ k ih =>
    intro t q hk hq
    rw [pfxGo_succ] at hq
    simp only [List.mem_append] at hq
    rcases hq with ((((hq | hq) | hq) | hq) | hq)
    · exact ih (childT_gap (by omega) hk) hq
    · exact ih (childT_gap (by omega) hk) hq
    · exact ih (childT_gap (by omega) hk) hq
    · exact ih (childT_gap (by omega) hk) hq
    · by_cases hc : ((t.1.n : Int) = depth ∨ b = false)
      · have hqt : q = t := by simpa [hc] using hq
        subst hqt
        constructor
        · omega
        · intro hb
          rcases hc with hc | hc
          · exact hc
          · rw [hb] at hc; cases hc
      · simp [hc] at hq

/-- The four children of a tile occupy pairwise distinct addresses. -/
theorem childT_pos_ne {mid : P → P → P} {t : TileC P} {i j : Nat}
    (hi : i < 4) (hj : j < 4) (hij : i ≠ j) :
    (childT mid t i).1 ≠ (childT mid t j).1 := by
  interval_cases i <;> interval_cases j <;>
    simp only [childT0_pos, childT1_pos, childT2_pos, childT3_pos, ne_eq,
      Pos.mk.injEq, not_and] <;> omega

/-- Bottom-only listing size: `4 ^ (depth - n)` tiles. -/
theorem length_pfxGo_bottom {mid : P → P → P} {depth : Int} :
    ∀ (k : Nat) (t : TileC P), (depth + 1 - (t.1.n : Int)).toNat = k + 1 →
      (pfxGo mid depth true (k + 1) t).length = 4 ^ k := by
  intro k
  induction k with
  | zero =>
    intro t hk
    have hn : (t.1.n : Int) = depth := by omega
    rw [pfxGo_succ]
    simp [pfxGo, hn]
  | succ k ih =>
    intro t hk
    have hn : ¬ ((t.1.n : Int) = depth) := by omega
    rw [pfxGo_succ]
    simp only [List.length_append]
    rw [ih _ (childT_gap (by omega) hk), ih _ (childT_gap (by omega) hk),
      ih _ (childT_gap (by omega) hk), ih _ (childT_gap (by omega) hk)]
    simp [hn]
    ring

/-- Full listing size: `3 · |list| = 4 ^ (depth - n + 1) - 1`. -/
theorem length_pfxGo_full3 {mid : P → P → P} {depth : Int} :
    ∀ (k : Nat) (t : TileC P), (depth + 1 - (t.1.n : Int)).toNat = k + 1 →
      3 * (pfxGo mid depth false (k + 1) t).length = 4 ^ (k + 1) - 1 := by
  intro k
  induction k with
  | zero =>
    intro t hk
    rw [pfxGo_succ]
    simp [pfxGo]
  | succ k ih =>
    intro t hk
    rw [pfxGo_succ, if_pos (Or.inr rfl : (t.1.n : Int) = depth ∨ (false = false))]
    simp only [List.length_append]
    have h0 := ih (childT mid t 0) (childT_gap (i := 0) (by omega) hk)
    have h1 := ih (childT mid t 1) (childT_gap (i := 1) (by omega) hk)
    have h2 := ih (childT mid t 2) (childT_gap (i := 2) (by omega) hk)
    have h3 := ih (childT mid t 3) (childT_gap (i := 3) (by omega) hk)
    have hp : (4:Nat) ^ (k + 2) = 4 * 4 ^ (k + 1) := by ring
    have hq : (1:Nat) ≤ 4 ^ (k + 1) := Nat.one_le_pow _ _ (by omega)
    simp only [List.length_singleton]
    omega

/-- Each address inside the subtree and within depth occurs exactly once in
the full post-order listing. -/
theorem count_pfxGo_full {mid : P → P → P} {depth : Int} :
    ∀ (k : Nat) (t : TileC P) (q : Pos),
      (depth + 1 - (t.1.n : Int)).toNat = k →
      ((pfxGo mid depth false k t).map (fun e => e.1)).count q
        = if (inSub q t.1 ∧ (q.n : Int) ≤ depth) then 1 else 0 := by
  intro k
  induction k with
  | zero =>
    intro t q hk
    rw [if_neg]
    · simp [pfxGo]
    · rintro ⟨hs, hle⟩
      have := inSub_le hs
      omega
  | succ k ih =>
    intro t q hk
    rw [pfxGo_succ, if_pos (Or.inr rfl : (t.1.n : Int) = depth ∨ (false = false))]
    simp only [List.map_append, List.count_append, List.map_cons, List.map_nil]
    rw [ih (childT mid t 0) q (childT_gap (i := 0) (by omega) hk),
      ih (childT mid t 1) q (childT_gap (i := 1) (by omega) hk),
      ih (childT mid t 2) q (childT_gap (i := 2) (by omega) hk),
      ih (childT mid t 3) q (childT_gap (i := 3) (by omega) hk)]
    have hex : ∀ i j : Nat, i < 4 → j < 4 → i ≠ j →
        inSub q (childT mid t i).1 → ¬ inSub q (childT mid t j).1 := by
      intro i j hi hj hij hqi hqj
      exact childT_pos_ne hi hj hij
        (inSub_same_level hqi hqj (by rw [childT_n hi, childT_n hj]))
    by_cases hqt : q = t.1
    · have z : ∀ i, i < 4 → ¬ (inSub q (childT mid t i).1 ∧ (q.n : Int) ≤ depth) := by
        rintro i hi ⟨hs, _⟩
        have h1 := inSub_le hs
        rw [childT_n hi] at h1
        rw [hqt] at h1
        omega
      rw [if_neg (z 0 (by omega)), if_neg (z 1 (by omega)), if_neg (z 2 (by omega)),
        if_neg (z 3 (by omega)),
        if_pos ⟨(by rw [hqt]; exact inSub_refl t.1 : inSub q t.1), by rw [hqt]; omega⟩]
      simp [hqt, List.count_cons]
    · have hcnt : List.count q [t.1] = 0 := by
        simp [List.count_cons, hqt]
      by_cases hcond : inSub q t.1 ∧ (q.n : Int) ≤ depth
      · have hne : q.n ≠ t.1.n := fun h => hqt (inSub_self_level hcond.1 h)
        have hlt : t.1.n < q.n := by
          have := inSub_le hcond.1
          omega
        have hch := inSub_children hcond.1 hlt
        rw [← childT0_pos mid t, ← childT1_pos mid t, ← childT2_pos mid t,
          ← childT3_pos mid t] at hch
        rw [if_pos hcond, hcnt]
        rcases hch with h | h | h | h
        · rw [if_pos ⟨h, hcond.2⟩,
            if_neg (fun hx => hex 0 1 (by omega) (by omega) (by omega) h hx.1),
            if_neg (fun hx => hex 0 2 (by omega) (by omega) (by omega) h hx.1),
            if_neg (fun hx => hex 0 3 (by omega) (by omega) (by omega) h hx.1)]
        · rw [if_neg (fun hx => hex 1 0 (by omega) (by omega) (by omega) h hx.1),
            if_pos ⟨h, hcond.2⟩,
            if_neg (fun hx => hex 1 2 (by omega) (by omega) (by omega) h hx.1),
            if_neg (fun hx => hex 1 3 (by omega) (by omega) (by omega) h hx.1)]
        · rw [if_neg (fun hx => hex 2 0 (by omega) (by omega) (by omega) h hx.1),
            if_neg (fun hx => hex 2 1 (by omega) (by omega) (by omega) h hx.1),
            if_pos ⟨h, hcond.2⟩,
            if_neg (fun hx => hex 2 3 (by omega) (by omega) (by omega) h hx.1)]
        · rw [if_neg (fun hx => hex 3 0 (by omega) (by omega) (by omega) h hx.1),
            if_neg (fun hx => hex 3 1 (by omega) (by omega) (by omega) h hx.1),
            if_neg (fun hx => hex 3 2 (by omega) (by omega) (by omega) h hx.1),
            if_pos ⟨h, hcond.2⟩]
      · have z : ∀ i, i < 4 → ¬ (inSub q (childT mid t i).1 ∧ (q.n : Int) ≤ depth) := by
          rintro i hi ⟨hs, hle⟩
          exact hcond ⟨inSub_childT hi hs, hle⟩
        rw [if_neg (z 0 (by omega)), if_neg (z 1 (by omega)), if_neg (z 2 (by omega)),
          if_neg (z 3 (by omega)), if_neg hcond, hcnt]

/-- Tuple projection helpers (to reduce literal traversal tuples). -/
theorem fstT {A B C : Type} (a : A) (b : B) (c : C) : ((a, b, c) : A × B × C).1 = a := rfl

theorem sndsndT {A B C : Type} (a : A) (b : B) (c : C) :
    ((a, b, c) : A × B × C).2.2 = c := rfl

/-! ### `iter_corners` level lemmas -/

theorem iterCorners_eq (mid : P → P → P) (level1 : Fin 4 → Corners P)
    (depth : Int) (b : Bool) :
    iterCorners mid level1 depth b =
      pfxGo mid depth b depth.toNat (⟨1, 0, 0⟩, level1 0, true)
        ++ pfxGo mid depth b depth.toNat (⟨1, 1, 0⟩, level1 1, false)
        ++ pfxGo mid depth b depth.toNat (⟨1, 1, 1⟩, level1 2, true)
        ++ pfxGo mid depth b depth.toNat (⟨1, 0, 1⟩, level1 3, false) := by
  have hg : (depth + 1 - ((1 : Nat) : Int)).toNat = depth.toNat := by omega
  simp only [iterCorners, rootTiles, List.flatMap_cons, List.flatMap_nil,
    pfxCorner, fstT, List.append_nil, List.append_assoc]
  norm_num [hg]

/-- The gap of a level-1 root for traversal depth `depth`. -/
theorem root_gap (depth : Int) : (depth + 1 - ((1 : Nat) : Int)).toNat = depth.toNat := by
  omega

theorem length_iterCorners_bottom (mid : P → P → P) (level1 : Fin 4 → Corners P)
    {d : Nat} (hd : 1 ≤ d) :
    (iterCorners mid level1 (d : Int) true).length = 4 ^ d := by
  obtain ⟨k, rfl⟩ : ∃ k, d = k + 1 := ⟨d - 1, by omega⟩
  rw [iterCorners_eq]
  simp only [List.length_append, Int.toNat_natCast]
  have hgap : ∀ c : Corners P, ∀ f : Bool, ∀ x y : Nat,
      (((k + 1 : Nat) : Int) + 1 - ((((⟨1, x, y⟩ : Pos), c, f) : TileC P).1.n : Int)).toNat = k + 1 := by
    intro c f x y
    show (((k + 1 : Nat) : Int) + 1 - ((1 : Nat) : Int)).toNat = k + 1
    omega
  rw [length_pfxGo_bottom k _ (hgap _ _ _ _), length_pfxGo_bottom k _ (hgap _ _ _ _),
    length_pfxGo_bottom k _ (hgap _ _ _ _), length_pfxGo_bottom k _ (hgap _ _ _ _)]
  ring

theorem length_iterCorners_full (mid : P → P → P) (level1 : Fin 4 → Corners P)
    {d : Nat} (hd : 1 ≤ d) :
    3 * (iterCorners mid level1 (d : Int) false).length = 4 ^ (d + 1) - 4 := by
  obtain ⟨k, rfl⟩ : ∃ k, d = k + 1 := ⟨d - 1, by omega⟩
  rw [iterCorners_eq]
  simp only [List.length_append, Int.toNat_natCast]
  have hgap : ∀ c : Corners P, ∀ f : Bool, ∀ x y : Nat,
      (((k + 1 : Nat) : Int) + 1 - ((((⟨1, x, y⟩ : Pos), c, f) : TileC P).1.n : Int)).toNat = k + 1 := by
    intro c f x y
    show (((k + 1 : Nat) : Int) + 1 - ((1 : Nat) : Int)).toNat = k + 1
    omega
  have h0 := @length_pfxGo_full3 P mid ((k + 1 : Nat) : Int) k
    (⟨1, 0, 0⟩, level1 0, true) (hgap _ _ _ _)
  have h1 := @length_pfxGo_full3 P mid ((k + 1 : Nat) : Int) k
    (⟨1, 1, 0⟩, level1 1, false) (hgap _ _ _ _)
  have h2 := @length_pfxGo_full3 P mid ((k + 1 : Nat) : Int) k
    (⟨1, 1, 1⟩, level1 2, true) (hgap _ _ _ _)
  have h3 := @length_pfxGo_full3 P mid ((k + 1 : Nat) : Int) k
    (⟨1, 0, 1⟩, level1 3, false) (hgap _ _ _ _)
  have hp : (4:Nat) ^ (k + 1 + 1) = 4 * 4 ^ (k + 1) := by ring
  have hq : (1:Nat) ≤ 4 ^ (k + 1) := Nat.one_le_pow _ _ (by omega)
  omega

/-- Every traversal node carries the orientation flag of the root face its
address descends from: `true` on the two roots with equal coordinates,
`false` on the two others, inherited unchanged at every depth. -/
theorem iterCorners_flag {mid : P → P → P} {level1 : Fin 4 → Corners P}
    {depth : Int} {b : Bool} :
    ∀ t ∈ iterCorners mid level1 depth b,
      t.2.2 = decide (t.1.x / 2 ^ (t.1.n - 1) = t.1.y / 2 ^ (t.1.n - 1)) := by
  intro t ht
  rw [iterCorners_eq] at ht
  simp only [List.mem_append] at ht
  rcases ht with ((ht | ht) | ht) | ht
  · obtain ⟨hs, ho⟩ := mem_pfxGo ht
    rw [fstT] at hs
    rw [inSub_mk] at hs
    rw [ho, sndsndT, hs.2.1, hs.2.2]
    simp
  · obtain ⟨hs, ho⟩ := mem_pfxGo ht
    rw [fstT] at hs
    rw [inSub_mk] at hs
    rw [ho, sndsndT, hs.2.1, hs.2.2]
    simp
  · obtain ⟨hs, ho⟩ := mem_pfxGo ht
    rw [fstT] at hs
    rw [inSub_mk] at hs
    rw [ho, sndsndT, hs.2.1, hs.2.2]
    simp
  · obtain ⟨hs, ho⟩ := mem_pfxGo ht
    rw [fstT] at hs
    rw [inSub_mk] at hs
    rw [ho, sndsndT, hs.2.1, hs.2.2]
    simp

/-- Addresses in the full traversal at depth `D ≥ 1`: every valid address of
level `1..D` occurs exactly once. -/
theorem count_iterCorners_full {mid : P → P → P} {level1 : Fin 4 → Corners P}
    {D : Int} (hD : 1 ≤ D) (q : Pos) :
    ((iterCorners mid level1 D false).map (fun e => e.1)).count q
      = if (1 ≤ q.n ∧ (q.n : Int) ≤ D ∧ q.x < 2 ^ q.n ∧ q.y < 2 ^ q.n)
        then 1 else 0 := by
  rw [iterCorners_eq]
  simp only [List.map_append, List.count_append]
  have hgap : ∀ c : Corners P, ∀ f : Bool, ∀ x y : Nat,
      (D + 1 - ((((⟨1, x, y⟩ : Pos), c, f) : TileC P).1.n : Int)).toNat = D.toNat := by
    intro c f x y
    show (D + 1 - ((1 : Nat) : Int)).toNat = D.toNat
    omega
  rw [count_pfxGo_full D.toNat _ q (hgap _ _ _ _),
    count_pfxGo_full D.toNat _ q (hgap _ _ _ _),
    count_pfxGo_full D.toNat _ q (hgap _ _ _ _),
    count_pfxGo_full D.toNat _ q (hgap _ _ _ _)]
  simp only [inSub_mk]
  by_cases h1 : 1 ≤ q.n
  · by_cases h2 : (q.n : Int) ≤ D
    · have h0 : 0 < 2 ^ (q.n - 1) := pow_pos (by omega) _
      set a := q.x / 2 ^ (q.n - 1) with ha
      set b := q.y / 2 ^ (q.n - 1) with hb
      have hpow : (2:Nat) ^ q.n = 2 ^ (q.n - 1) * 2 := by
        conv_lhs => rw [show q.n = (q.n - 1) + 1 by omega]
        rw [pow_succ]
      have hx : q.x < 2 ^ q.n ↔ a < 2 := by
        rw [hpow, Nat.mul_comm, ha]
        exact (Nat.div_lt_iff_lt_mul h0).symm
      have hy : q.y < 2 ^ q.n ↔ b < 2 := by
        rw [hpow, Nat.mul_comm, hb]
        exact (Nat.div_lt_iff_lt_mul h0).symm
      have e0 : ((1 ≤ q.n ∧ a = 0 ∧ b = 0) ∧ (q.n : Int) ≤ D) ↔ (a = 0 ∧ b = 0) := by
        constructor
        · exact fun h => h.1.2
        · exact fun h => ⟨⟨h1, h⟩, h2⟩
      have e1 : ((1 ≤ q.n ∧ a = 1 ∧ b = 0) ∧ (q.n : Int) ≤ D) ↔ (a = 1 ∧ b = 0) := by
        constructor
        · exact fun h => h.1.2
        · exact fun h => ⟨⟨h1, h⟩, h2⟩
      have e2 : ((1 ≤ q.n ∧ a = 1 ∧ b = 1) ∧ (q.n : Int) ≤ D) ↔ (a = 1 ∧ b = 1) := by
        constructor
        · exact fun h => h.1.2
        · exact fun h => ⟨⟨h1, h⟩, h2⟩
      have e3 : ((1 ≤ q.n ∧ a = 0 ∧ b = 1) ∧ (q.n : Int) ≤ D) ↔ (a = 0 ∧ b = 1) := by
        constructor
        · exact fun h => h.1.2
        · exact fun h => ⟨⟨h1, h⟩, h2⟩
      have eR : (1 ≤ q.n ∧ (q.n : Int) ≤ D ∧ q.x < 2 ^ q.n ∧ q.y < 2 ^ q.n)
          ↔ (a < 2 ∧ b < 2) := by
        constructor
        · rintro ⟨_, _, hxx, hyy⟩
          exact ⟨hx.1 hxx, hy.1 hyy⟩
        · rintro ⟨hxa, hyb⟩
          exact ⟨h1, h2, hx.2 hxa, hy.2 hyb⟩
      rw [if_congr e0 rfl rfl, if_congr e1 rfl rfl, if_congr e2 rfl rfl,
        if_congr e3 rfl rfl, if_congr eR rfl rfl]
      clear_value a b
      split_ifs <;> omega
    · rw [if_neg (fun hh => h2 hh.2), if_neg (fun hh => h2 hh.2),
        if_neg (fun hh => h2 hh.2), if_neg (fun hh => h2 hh.2),
        if_neg (fun hh => h2 hh.2.1)]
  · rw [if_neg (fun hh => h1 hh.1.1), if_neg (fun hh => h1 hh.1.1),
      if_neg (fun hh => h1 hh.1.1), if_neg (fun hh => h1 hh.1.1),
      if_neg (fun hh => h1 hh.1)]

theorem lookupA_absent {A : Accum Img} {p : Pos} (h : ∀ e ∈ A, e.1 ≠ p) :
    lookupA A p = {} := by
  induction A with
  | nil => rfl
  | cons e rest ih =>
    obtain ⟨k, v⟩ := e
    simp only [lookupA]
    rw [if_neg (h (k, v) (List.mem_cons_self _ _))]
    exact ih fun e he => h e (List.mem_cons_of_mem _ he)

theorem setA_absent {A : Accum Img} {p : Pos} {v : CMap Img}
    (h : ∀ e ∈ A, e.1 ≠ p) : setA A p v = A ++ [(p, v)] := by
  induction A with
  | nil => rfl
  | cons e rest ih =>
    obtain ⟨k, w⟩ := e
    simp only [setA]
    rw [if_neg (h (k, w) (List.mem_cons_self _ _))]
    rw [ih fun e he => h e (List.mem_cons_of_mem _ he)]
    rfl

theorem lookupA_append_self {A : Accum Img} {p : Pos} {v : CMap Img}
    (h : ∀ e ∈ A, e.1 ≠ p) : lookupA (A ++ [(p, v)]) p = v := by
  induction A with
  | nil => simp [lookupA]
  | cons e rest ih =>
    obtain ⟨k, w⟩ := e
    simp only [List.cons_append, lookupA]
    rw [if_neg (h (k, w) (List.mem_cons_self _ _))]
    exact ih fun e he => h e (List.mem_cons_of_mem _ he)

theorem setA_append_self {A : Accum Img} {p : Pos} {v w : CMap Img}
    (h : ∀ e ∈ A, e.1 ≠ p) : setA (A ++ [(p, v)]) p w = A ++ [(p, w)] := by
  induction A with
  | nil => simp [setA]
  | cons e rest ih =>
    obtain ⟨k, u⟩ := e
    simp only [List.cons_append, setA, List.append_eq]
    rw [if_neg (h (k, u) (List.mem_cons_self _ _))]
    rw [ih fun e he => h e (List.mem_cons_of_mem _ he)]

theorem eraseA_append_self {A : Accum Img} {p : Pos} {v : CMap Img}
    (h : ∀ e ∈ A, e.1 ≠ p) : eraseA (A ++ [(p, v)]) p = A := by
  induction A with
  | nil => simp [eraseA]
  | cons e rest ih =>
    obtain ⟨k, u⟩ := e
    simp only [List.cons_append, eraseA, List.append_eq]
    rw [if_neg (h (k, u) (List.mem_cons_self _ _))]
    rw [ih fun e he => h e (List.mem_cons_of_mem _ he)]

theorem countA_append (A B : Accum Img) : countA (A ++ B) = countA A + countA B := by
  simp [countA]

/-! ### Single-step trickle lemmas -/

/-- One accumulate step of `_trickle_up` that leaves the parent incomplete:
the node is emitted when within depth and its image is stored in the parent's
corner map. -/
theorem trickle_accum (default_merge : Img → Img)
    (mosaic : Img → Img → Img → Img → Img) (mrg : Option (Img → Img))
    (depth : Int) {m x y : Nat} (im : Img) (A : Accum Img)
    (hok : ¬(mrg.isNone = true ∧ m + 1 > 1))
    (hsz : ((lookupA A ⟨m, x / 2, y / 2⟩).set (x % 2) (y % 2) im).size < 4) :
    tuGo default_merge mosaic mrg depth (m + 1) x y im A
      = ((if depth ≥ ((m + 1 : Nat) : Int) then [(⟨m + 1, x, y⟩, im)] else []),
         setA A ⟨m, x / 2, y / 2⟩
           ((lookupA A ⟨m, x / 2, y / 2⟩).set (x % 2) (y % 2) im)) := by
  conv_lhs => rw [tuGo]
  simp only [parent, Nat.add_sub_cancel]
  rw [if_neg hok, if_pos hsz]

/-- One accumulate step of `_trickle_up` that completes the parent: the entry
is popped, the 2×2 mosaic is reduced, and the result trickles up
recursively. -/
theorem trickle_full (default_merge : Img → Img)
    (mosaic : Img → Img → Img → Img → Img) (mrg : Option (Img → Img))
    (depth : Int) {m x y : Nat} (im : Img) (A : Accum Img)
    (hok : ¬(mrg.isNone = true ∧ m + 1 > 1))
    (hsz : ¬ ((lookupA A ⟨m, x / 2, y / 2⟩).set (x % 2) (y % 2) im).size < 4) :
    tuGo default_merge mosaic mrg depth (m + 1) x y im A
      = (let corners := (lookupA A ⟨m, x / 2, y / 2⟩).set (x % 2) (y % 2) im
         let A1 := eraseA (setA A ⟨m, x / 2, y / 2⟩ corners) ⟨m, x / 2, y / 2⟩
         let im2 := (mrg.getD default_merge)
           (mosaic (corners.c00.getD im) (corners.c10.getD im)
             (corners.c01.getD im) (corners.c11.getD im))
         ((if depth ≥ ((m + 1 : Nat) : Int) then [(⟨m + 1, x, y⟩, im)] else [])
            ++ (tuGo default_merge mosaic mrg depth m (x / 2) (y / 2) im2 A1).1,
          (tuGo default_merge mosaic mrg depth m (x / 2) (y / 2) im2 A1).2)) := by
  conv_lhs => rw [tuGo]
  simp only [parent, Nat.add_sub_cancel]
  rw [if_neg hok, if_neg hsz]

/-- Absorbing the first (upper-left) child image of a parent `p`: the child is
emitted when within depth and a fresh accumulator entry for `p` is opened. -/
theorem trickle_child0 (default_merge : Img → Img)
    (mosaic : Img → Img → Img → Img → Img) (mrg : Option (Img → Img))
    (depth : Int) (p : Pos) (i0 : Img) (A : Accum Img)
    (hok : ¬(mrg.isNone = true ∧ p.n + 1 > 1)) (hA : ∀ e ∈ A, e.1 ≠ p) :
    trickleUp default_merge mosaic mrg depth i0 ⟨p.n + 1, 2 * p.x, 2 * p.y⟩ A
      = ((if depth ≥ ((p.n + 1 : Nat) : Int)
            then [(⟨p.n + 1, 2 * p.x, 2 * p.y⟩, i0)] else []),
         A ++ [(p, ⟨some i0, none, none, none⟩)]) := by
  obtain ⟨pn, px, py⟩ := p
  have e1 : 2 * px / 2 = px := by omega
  have e2 : 2 * py / 2 = py := by omega
  have e3 : 2 * px % 2 = 0 := by omega
  have e4 : 2 * py % 2 = 0 := by omega
  have hsz : ((lookupA A ⟨pn, 2 * px / 2, 2 * py / 2⟩).set (2 * px % 2)
      (2 * py % 2) i0).size < 4 := by
    rw [e1, e2, e3, e4, lookupA_absent hA]
    show (1 : Nat) < 4
    omega
  show tuGo default_merge mosaic mrg depth (pn + 1) (2 * px) (2 * py) i0 A = _
  rw [trickle_accum default_merge mosaic mrg depth i0 A hok hsz,
    e1, e2, e3, e4, lookupA_absent hA, setA_absent hA]
  rfl

/-- Absorbing the second (upper-right) child image of `p`. -/
theorem trickle_child1 (default_merge : Img → Img)
    (mosaic : Img → Img → Img → Img → Img) (mrg : Option (Img → Img))
    (depth : Int) (p : Pos) (i0 i1 : Img) (A : Accum Img)
    (hok : ¬(mrg.isNone = true ∧ p.n + 1 > 1)) (hA : ∀ e ∈ A, e.1 ≠ p) :
    trickleUp default_merge mosaic mrg depth i1 ⟨p.n + 1, 2 * p.x + 1, 2 * p.y⟩
        (A ++ [(p, ⟨some i0, none, none, none⟩)])
      = ((if depth ≥ ((p.n + 1 : Nat) : Int)
            then [(⟨p.n + 1, 2 * p.x + 1, 2 * p.y⟩, i1)] else []),
         A ++ [(p, ⟨some i0, some i1, none, none⟩)]) := by
  obtain ⟨pn, px, py⟩ := p
  have e1 : (2 * px + 1) / 2 = px := by omega
  have e2 : 2 * py / 2 = py := by omega
  have e3 : (2 * px + 1) % 2 = 1 := by omega
  have e4 : 2 * py % 2 = 0 := by omega
  have hsz : ((lookupA (A ++ [(⟨pn, px, py⟩, ⟨some i0, none, none, none⟩)])
      ⟨pn, (2 * px + 1) / 2, 2 * py / 2⟩).set ((2 * px + 1) % 2)
      (2 * py % 2) i1).size < 4 := by
    rw [e1, e2, e3, e4, lookupA_append_self hA]
    show (2 : Nat) < 4
    omega
  show tuGo default_merge mosaic mrg depth (pn + 1) (2 * px + 1) (2 * py) i1 _ = _
  rw [trickle_accum default_merge mosaic mrg depth i1 _ hok hsz,
    e1, e2, e3, e4, lookupA_append_self hA, setA_append_self hA]
  rfl

/-- Absorbing the third (lower-left, `_div4` order) child image of `p`. -/
theorem trickle_child2 (default_merge : Img → Img)
    (mosaic : Img → Img → Img → Img → Img) (mrg : Option (Img → Img))
    (depth : Int) (p : Pos) (i0 i1 i2 : Img) (A : Accum Img)
    (hok : ¬(mrg.isNone = true ∧ p.n + 1 > 1)) (hA : ∀ e ∈ A, e.1 ≠ p) :
    trickleUp default_merge mosaic mrg depth i2 ⟨p.n + 1, 2 * p.x, 2 * p.y + 1⟩
        (A ++ [(p, ⟨some i0, some i1, none, none⟩)])
      = ((if depth ≥ ((p.n + 1 : Nat) : Int)
            then [(⟨p.n + 1, 2 * p.x, 2 * p.y + 1⟩, i2)] else []),
         A ++ [(p, ⟨some i0, some i1, some i2, none⟩)]) := by
  obtain ⟨pn, px, py⟩ := p
  have e1 : 2 * px / 2 = px := by omega
  have e2 : (2 * py + 1) / 2 = py := by omega
  have e3 : 2 * px % 2 = 0 := by omega
  have e4 : (2 * py + 1) % 2 = 1 := by omega
  have hsz : ((lookupA (A ++ [(⟨pn, px, py⟩, ⟨some i0, some i1, none, none⟩)])
      ⟨pn, 2 * px / 2, (2 * py + 1) / 2⟩).set (2 * px % 2)
      ((2 * py + 1) % 2) i2).size < 4 := by
    rw [e1, e2, e3, e4, lookupA_append_self hA]
    show (3 : Nat) < 4
    omega
  show tuGo default_merge mosaic mrg depth (pn + 1) (2 * px) (2 * py + 1) i2 _ = _
  rw [trickle_accum default_merge mosaic mrg depth i2 _ hok hsz,
    e1, e2, e3, e4, lookupA_append_self hA, setA_append_self hA]
  rfl

/-- Absorbing the fourth (lower-right) child image of `p` completes the entry:
it is popped, the mosaic of the four stored images is reduced, and the merged
image trickles up from `p`. -/
theorem trickle_child3 (default_merge : Img → Img)
    (mosaic : Img → Img → Img → Img → Img) (mrg : Option (Img → Img))
    (depth : Int) (p : Pos) (i0 i1 i2 i3 : Img) (A : Accum Img)
    (hok : ¬(mrg.isNone = true ∧ p.n + 1 > 1)) (hA : ∀ e ∈ A, e.1 ≠ p) :
    trickleUp default_merge mosaic mrg depth i3 ⟨p.n + 1, 2 * p.x + 1, 2 * p.y + 1⟩
        (A ++ [(p, ⟨some i0, some i1, some i2, none⟩)])
      = ((if depth ≥ ((p.n + 1 : Nat) : Int)
            then [(⟨p.n + 1, 2 * p.x + 1, 2 * p.y + 1⟩, i3)] else [])
          ++ (trickleUp default_merge mosaic mrg depth
              ((mrg.getD default_merge) (mosaic i0 i1 i2 i3)) p A).1,
         (trickleUp default_merge mosaic mrg depth
              ((mrg.getD default_merge) (mosaic i0 i1 i2 i3)) p A).2) := by
  obtain ⟨pn, px, py⟩ := p
  have e1 : (2 * px + 1) / 2 = px := by omega
  have e2 : (2 * py + 1) / 2 = py := by omega
  have e3 : (2 * px + 1) % 2 = 1 := by omega
  have e4 : (2 * py + 1) % 2 = 1 := by omega
  have hsz : ¬ ((lookupA (A ++ [(⟨pn, px, py⟩, ⟨some i0, some i1, some i2, none⟩)])
      ⟨pn, (2 * px + 1) / 2, (2 * py + 1) / 2⟩).set ((2 * px + 1) % 2)
      ((2 * py + 1) % 2) i3).size < 4 := by
    rw [e1, e2, e3, e4, lookupA_append_self hA]
    show ¬ ((4 : Nat) < 4)
    omega
  show tuGo default_merge mosaic mrg depth (pn + 1) (2 * px + 1) (2 * py + 1) i3 _ = _
  rw [trickle_full default_merge mosaic mrg depth i3 _ hok hsz]
  dsimp only
  rw [e1, e2, e3, e4, lookupA_append_self hA, setA_append_self hA,
    eraseA_append_self hA]
  rfl

/-- Root visiting order differs from `_div4` order: the third root `(1,1)`
arrives while corner `(0,1)` is still empty. -/
theorem trickle_rootstep2 (default_merge : Img → Img)
    (mosaic : Img → Img → Img → Img → Img) (mrg : Option (Img → Img))
    (depth : Int) (p : Pos) (i0 i1 i2 : Img) (A : Accum Img)
    (hok : ¬(mrg.isNone = true ∧ p.n + 1 > 1)) (hA : ∀ e ∈ A, e.1 ≠ p) :
    trickleUp default_merge mosaic mrg depth i2 ⟨p.n + 1, 2 * p.x + 1, 2 * p.y + 1⟩
        (A ++ [(p, ⟨some i0, some i1, none, none⟩)])
      = ((if depth ≥ ((p.n + 1 : Nat) : Int)
            then [(⟨p.n + 1, 2 * p.x + 1, 2 * p.y + 1⟩, i2)] else []),
         A ++ [(p, ⟨some i0, some i1, none, some i2⟩)]) := by
  obtain ⟨pn, px, py⟩ := p
  have e1 : (2 * px + 1) / 2 = px := by omega
  have e2 : (2 * py + 1) / 2 = py := by omega
  have e3 : (2 * px + 1) % 2 = 1 := by omega
  have e4 : (2 * py + 1) % 2 = 1 := by omega
  have hsz : ((lookupA (A ++ [(⟨pn, px, py⟩, ⟨some i0, some i1, none, none⟩)])
      ⟨pn, (2 * px + 1) / 2, (2 * py + 1) / 2⟩).set ((2 * px + 1) % 2)
      ((2 * py + 1) % 2) i2).size < 4 := by
    rw [e1, e2, e3, e4, lookupA_append_self hA]
    show (3 : Nat) < 4
    omega
  show tuGo default_merge mosaic mrg depth (pn + 1) (2 * px + 1) (2 * py + 1) i2 _ = _
  rw [trickle_accum default_merge mosaic mrg depth i2 _ hok hsz,
    e1, e2, e3, e4, lookupA_append_self hA, setA_append_self hA]
  rfl

/-- The fourth root `(0,1)` completes the level-0 entry; the mosaic receives
the stored images as `(ul, ur, bl, br) = (i0, i1, i3, i2)`. -/
theorem trickle_rootstep3 (default_merge : Img → Img)
    (mosaic : Img → Img → Img → Img → Img) (mrg : Option (Img → Img))
    (depth : Int) (p : Pos) (i0 i1 i2 i3 : Img) (A : Accum Img)
    (hok : ¬(mrg.isNone = true ∧ p.n + 1 > 1)) (hA : ∀ e ∈ A, e.1 ≠ p) :
    trickleUp default_merge mosaic mrg depth i3 ⟨p.n + 1, 2 * p.x, 2 * p.y + 1⟩
        (A ++ [(p, ⟨some i0, some i1, none, some i2⟩)])
      = ((if depth ≥ ((p.n + 1 : Nat) : Int)
            then [(⟨p.n + 1, 2 * p.x, 2 * p.y + 1⟩, i3)] else [])
          ++ (trickleUp default_merge mosaic mrg depth
              ((mrg.getD default_merge) (mosaic i0 i1 i3 i2)) p A).1,
         (trickleUp default_merge mosaic mrg depth
              ((mrg.getD default_merge) (mosaic i0 i1 i3 i2)) p A).2) := by
  obtain ⟨pn, px, py⟩ := p
  have e1 : 2 * px / 2 = px := by omega
  have e2 : (2 * py + 1) / 2 = py := by omega
  have e3 : 2 * px % 2 = 0 := by omega
  have e4 : (2 * py + 1) % 2 = 1 := by omega
  have hsz : ¬ ((lookupA (A ++ [(⟨pn, px, py⟩, ⟨some i0, some i1, none, some i2⟩)])
      ⟨pn, 2 * px / 2, (2 * py + 1) / 2⟩).set (2 * px % 2)
      ((2 * py + 1) % 2) i3).size < 4 := by
    rw [e1, e2, e3, e4, lookupA_append_self hA]
    show ¬ ((4 : Nat) < 4)
    omega
  show tuGo default_merge mosaic mrg depth (pn + 1) (2 * px) (2 * py + 1) i3 _ = _
  rw [trickle_full default_merge mosaic mrg depth i3 _ hok hsz]
  dsimp only
  rw [e1, e2, e3, e4, lookupA_append_self hA, setA_append_self hA,
    eraseA_append_self hA]
  rfl

/-! ### Fold lemmas -/

theorem absorbFold_append (subsample : P → P → P → P → Nat → Bool → Grid × Grid)
    (data_sampler : Grid → Grid → Img) (default_merge : Img → Img)
    (mosaic : Img → Img → Img → Img → Img) (mrg : Option (Img → Img))
    (depth : Int) (l1 l2 : List (TileC P)) (A : Accum Img) :
    absorbFold subsample data_sampler default_merge mosaic mrg depth (l1 ++ l2) A
      = ((absorbFold subsample data_sampler default_merge mosaic mrg depth l1 A).1
          ++ (absorbFold subsample data_sampler default_merge mosaic mrg depth l2
              (absorbFold subsample data_sampler default_merge mosaic mrg depth l1 A).2).1,
         (absorbFold subsample data_sampler default_merge mosaic mrg depth l2
              (absorbFold subsample data_sampler default_merge mosaic mrg depth l1 A).2).2) := by
  induction l1 generalizing A with
  | nil => simp [absorbFold]
  | cons t ts ih =>
    simp only [List.cons_append, absorbFold, List.append_eq, ih, List.append_assoc]

theorem absorbStates_append (subsample : P → P → P → P → Nat → Bool → Grid × Grid)
    (data_sampler : Grid → Grid → Img) (default_merge : Img → Img)
    (mosaic : Img → Img → Img → Img → Img) (mrg : Option (Img → Img))
    (depth : Int) (l1 l2 : List (TileC P)) (A : Accum Img) :
    absorbStates subsample data_sampler default_merge mosaic mrg depth (l1 ++ l2) A
      = absorbStates subsample data_sampler default_merge mosaic mrg depth l1 A
        ++ absorbStates subsample data_sampler default_merge mosaic mrg depth l2
            (absorbFold subsample data_sampler default_merge mosaic mrg depth l1 A).2 := by
  induction l1 generalizing A with
  | nil => simp [absorbStates, absorbFold]
  | cons t ts ih =>
    simp only [List.cons_append, absorbStates, absorbFold, List.append_eq, ih]

/-- The behaviour of the merging run over one whole bottom-only subtree
listing: it is exactly one `_trickle_up` call of the subtree's merged image
at the subtree root, preceded by the emissions produced inside the
subtree. -/
theorem run_on_subtree (mid : P → P → P)
    (subsample : P → P → P → P → Nat → Bool → Grid × Grid)
    (data_sampler : Grid → Grid → Img) (default_merge : Img → Img)
    (mosaic : Img → Img → Img → Img → Img) {mrg : Option (Img → Img)}
    (hm : mrg.isSome = true) (depth Dt : Int) :
    ∀ (k : Nat) (t : TileC P) (A : Accum Img),
      (Dt + 1 - (t.1.n : Int)).toNat = k + 1 →
      1 ≤ t.1.n →
      (∀ e ∈ A, ¬ inSub e.1 t.1) →
      absorbFold subsample data_sampler default_merge mosaic mrg depth
          (pfxGo mid Dt true (k + 1) t) A
        = (predEmits mid subsample data_sampler default_merge mosaic mrg depth k t
            ++ (trickleUp default_merge mosaic mrg depth
                 (mergedGo mid subsample data_sampler default_merge mosaic mrg k t)
                 t.1 A).1,
           (trickleUp default_merge mosaic mrg depth
                 (mergedGo mid subsample data_sampler default_merge mosaic mrg k t)
                 t.1 A).2) := by
  have hok : ∀ m : Nat, ¬(mrg.isNone = true ∧ m + 1 > 1) := by
    rintro m ⟨h1, _⟩
    rw [Option.isNone_iff_eq_none] at h1
    rw [h1] at hm
    cases hm
  intro k
  induction k with
  | zero =>
    intro t A hk _ _
    have hn : (t.1.n : Int) = Dt := by omega
    rw [pfxGo_succ]
    simp only [pfxGo, List.nil_append]
    rw [if_pos (Or.inl hn)]
    simp [absorbFold, predEmits, mergedGo, trickleUp]
  | succ k ih =>
    intro t A hk hn1 hA
    have hAne : ∀ e ∈ A, e.1 ≠ t.1 := by
      intro e he heq
      exact hA e he (heq ▸ inSub_refl e.1)
    have hg : ¬ ((t.1.n : Int) = Dt ∨ (true : Bool) = false) := by
      rintro (h | h)
      · omega
      · cases h
    rw [pfxGo_succ, if_neg hg, List.append_nil, List.append_assoc, List.append_assoc]
    rw [absorbFold_append]
    rw [ih (childT mid t 0) A (childT_gap (by omega) hk)
      (by rw [childT_n (by omega : (0:Nat) < 4)]; omega)
      (by
        intro e he hs
        exact hA e he (inSub_childT (by omega) hs))]
    rw [childT0_pos mid t]
    rw [trickle_child0 default_merge mosaic mrg depth t.1 _ A (hok _) hAne]
    rw [absorbFold_append]
    rw [ih (childT mid t 1) _ (childT_gap (by omega) hk)
      (by rw [childT_n (by omega : (1:Nat) < 4)]; omega)
      (by
        intro e he hs
        rcases List.mem_append.1 he with he | he
        · exact hA e he (inSub_childT (by omega) hs)
        · have he2 : e.1 = t.1 := by
            have : e = (t.1, ⟨some (mergedGo mid subsample data_sampler default_merge mosaic mrg k (childT mid t 0)), none, none, none⟩) := by
              simpa using he
            rw [this]
          rw [he2] at hs
          have := inSub_le hs
          rw [childT_n (by omega : (1:Nat) < 4)] at this
          omega)]
    rw [childT1_pos mid t]
    rw [trickle_child1 default_merge mosaic mrg depth t.1 _ _ A (hok _) hAne]
    rw [absorbFold_append]
    rw [ih (childT mid t 2) _ (childT_gap (by omega) hk)
      (by rw [childT_n (by omega : (2:Nat) < 4)]; omega)
      (by
        intro e he hs
        rcases List.mem_append.1 he with he | he
        · exact hA e he (inSub_childT (by omega) hs)
        · have he2 : e.1 = t.1 := by
            have : e = (t.1, ⟨some (mergedGo mid subsample data_sampler default_merge mosaic mrg k (childT mid t 0)), some (mergedGo mid subsample data_sampler default_merge mosaic mrg k (childT mid t 1)), none, none⟩) := by
              simpa using he
            rw [this]
          rw [he2] at hs
          have := inSub_le hs
          rw [childT_n (by omega : (2:Nat) < 4)] at this
          omega)]
    rw [childT2_pos mid t]
    rw [trickle_child2 default_merge mosaic mrg depth t.1 _ _ _ A (hok _) hAne]
    rw [ih (childT mid t 3) _ (childT_gap (by omega) hk)
      (by rw [childT_n (by omega : (3:Nat) < 4)]; omega)
      (by
        intro e he hs
        rcases List.mem_append.1 he with he | he
        · exact hA e he (inSub_childT (by omega) hs)
        · have he2 : e.1 = t.1 := by
            have : e = (t.1, ⟨some (mergedGo mid subsample data_sampler default_merge mosaic mrg k (childT mid t 0)), some (mergedGo mid subsample data_sampler default_merge mosaic mrg k (childT mid t 1)), some (mergedGo mid subsample data_sampler default_merge mosaic mrg k (childT mid t 2)), none⟩) := by
              simpa using he
            rw [this]
          rw [he2] at hs
          have := inSub_le hs
          rw [childT_n (by omega : (3:Nat) < 4)] at this
          omega)]
    rw [childT3_pos mid t]
    rw [trickle_child3 default_merge mosaic mrg depth t.1 _ _ _ _ A (hok _) hAne]
    rw [predEmits]
    simp only [emitOne, childT0_pos, childT1_pos, childT2_pos, childT3_pos,
      mergedGo, List.append_assoc]

/-- `_trickle_up` at the synthetic level-0 node: emit when `depth >= 0` and
stop. -/
theorem trickle_level0 (default_merge : Img → Img)
    (mosaic : Img → Img → Img → Img → Img) (mrg : Option (Img → Img))
    (depth : Int) (im : Img) (A : Accum Img) :
    trickleUp default_merge mosaic mrg depth im ⟨0, 0, 0⟩ A
      = ((if depth ≥ (0 : Int) then [((⟨0, 0, 0⟩ : Pos), im)] else []), A) := rfl

/-- A node of level ≥ 2 in a non-merging run is emitted (when within depth)
and leaves the accumulator untouched. -/
theorem trickle_off_skip (default_merge : Img → Img)
    (mosaic : Img → Img → Img → Img → Img) (depth : Int) {node : Pos}
    (h : 2 ≤ node.n) (im : Img) (A : Accum Img) :
    trickleUp default_merge mosaic (none : Option (Img → Img)) depth im node A
      = ((if depth ≥ (node.n : Int) then [(node, im)] else []), A) := by
  obtain ⟨n, x, y⟩ := node
  have h' : 2 ≤ n := h
  obtain ⟨m, rfl⟩ : ∃ m, n = m + 1 := ⟨n - 1, by omega⟩
  show tuGo default_merge mosaic none depth (m + 1) x y im A = _
  conv_lhs => rw [tuGo]
  rw [if_pos ⟨rfl, by omega⟩]

/-- A non-merging run over a listing of tiles of level ≥ 2 only emits sampled
images and leaves the accumulator unchanged. -/
theorem run_off_list (subsample : P → P → P → P → Nat → Bool → Grid × Grid)
    (data_sampler : Grid → Grid → Img) (default_merge : Img → Img)
    (mosaic : Img → Img → Img → Img → Img) (depth : Int) :
    ∀ (L : List (TileC P)) (A : Accum Img), (∀ q ∈ L, 2 ≤ q.1.n) →
      absorbFold subsample data_sampler default_merge mosaic none depth L A
        = (offEmits subsample data_sampler depth L, A) := by
  intro L
  induction L with
  | nil => intro A _; simp [absorbFold, offEmits]
  | cons t ts ih =>
    intro A h2
    simp only [absorbFold]
    rw [trickle_off_skip default_merge mosaic depth (h2 t (List.mem_cons_self _ _)) _ A,
      ih A (fun q hq => h2 q (List.mem_cons_of_mem _ hq))]
    simp only [offEmits, List.filterMap_cons]
    by_cases hd : depth ≥ (t.1.n : Int)
    · simp [hd, offEmits]
    · simp [hd, offEmits]

/-- Absorbing the first root face. -/
theorem trickle_root0 (default_merge : Img → Img)
    (mosaic : Img → Img → Img → Img → Img) (mrg : Option (Img → Img))
    (depth : Int) (i0 : Img) :
    trickleUp default_merge mosaic mrg depth i0 ⟨1, 0, 0⟩ ([] : Accum Img)
      = ((if depth ≥ (1 : Int) then [((⟨1, 0, 0⟩ : Pos), i0)] else []),
         [(⟨0, 0, 0⟩, ⟨some i0, none, none, none⟩)]) := by
  have h := trickle_child0 default_merge mosaic mrg depth ⟨0, 0, 0⟩ i0 []
    (by simp) (by simp)
  norm_num at h
  exact h

/-- Absorbing the second root face. -/
theorem trickle_root1 (default_merge : Img → Img)
    (mosaic : Img → Img → Img → Img → Img) (mrg : Option (Img → Img))
    (depth : Int) (i0 i1 : Img) :
    trickleUp default_merge mosaic mrg depth i1 ⟨1, 1, 0⟩
        [(⟨0, 0, 0⟩, ⟨some i0, none, none, none⟩)]
      = ((if depth ≥ (1 : Int) then [((⟨1, 1, 0⟩ : Pos), i1)] else []),
         [(⟨0, 0, 0⟩, ⟨some i0, some i1, none, none⟩)]) := by
  have h := trickle_child1 default_merge mosaic mrg depth ⟨0, 0, 0⟩ i0 i1 []
    (by simp) (by simp)
  norm_num at h
  exact h

/-- Absorbing the third root face (corner `(1,1)` of the level-0 parent). -/
theorem trickle_root2 (default_merge : Img → Img)
    (mosaic : Img → Img → Img → Img → Img) (mrg : Option (Img → Img))
    (depth : Int) (i0 i1 i2 : Img) :
    trickleUp default_merge mosaic mrg depth i2 ⟨1, 1, 1⟩
        [(⟨0, 0, 0⟩, ⟨some i0, some i1, none, none⟩)]
      = ((if depth ≥ (1 : Int) then [((⟨1, 1, 1⟩ : Pos), i2)] else []),
         [(⟨0, 0, 0⟩, ⟨some i0, some i1, none, some i2⟩)]) := by
  have h := trickle_rootstep2 default_merge mosaic mrg depth ⟨0, 0, 0⟩ i0 i1 i2 []
    (by simp) (by simp)
  norm_num at h
  exact h

/-- Absorbing the fourth root face completes the level-0 parent: the four
root images are merged (mosaic order `ul, ur, bl, br = i0, i1, i3, i2`) and
the level-0 tile is emitted when `depth ≥ 0`. -/
theorem trickle_root3 (default_merge : Img → Img)
    (mosaic : Img → Img → Img → Img → Img) (mrg : Option (Img → Img))
    (depth : Int) (i0 i1 i2 i3 : Img) :
    trickleUp default_merge mosaic mrg depth i3 ⟨1, 0, 1⟩
        [(⟨0, 0, 0⟩, ⟨some i0, some i1, none, some i2⟩)]
      = ((if depth ≥ (1 : Int) then [((⟨1, 0, 1⟩ : Pos), i3)] else [])
          ++ (if depth ≥ (0 : Int)
             then [((⟨0, 0, 0⟩ : Pos),
               (mrg.getD default_merge) (mosaic i0 i1 i3 i2))] else []),
         ([] : Accum Img)) := by
  have h := trickle_rootstep3 default_merge mosaic mrg depth ⟨0, 0, 0⟩ i0 i1 i2 i3 []
    (by simp) (by simp)
  rw [trickle_level0] at h
  norm_num at h
  exact h

/-- Full run of `iter_tiles` with a truthy `merge`: per root face, the inner
emissions of its subtree followed by the root's merged tile (when `depth ≥ 1`),
and finally the level-0 tile (when `depth ≥ 0`) obtained by reducing the 2×2
mosaic of the four root images. -/
theorem iterTilesRaw_on (mid : P → P → P) (level1 : Fin 4 → Corners P)
    (subsample : P → P → P → P → Nat → Bool → Grid × Grid)
    (data_sampler : Grid → Grid → Img) (default_merge : Img → Img)
    (mosaic : Img → Img → Img → Img → Img) (depth : Int) (merge : MergeArg Img)
    (hm : (merge.resolve default_merge).isSome = true)
    (k : Nat) (hk : (max depth 1).toNat = k + 1) :
    iterTilesRaw mid level1 subsample data_sampler default_merge mosaic depth merge
      = predEmits mid subsample data_sampler default_merge mosaic
          (merge.resolve default_merge) depth k (⟨1, 0, 0⟩, level1 0, true)
        ++ ((if depth ≥ (1 : Int) then
              [((⟨1, 0, 0⟩ : Pos),
                mergedGo mid subsample data_sampler default_merge mosaic
                  (merge.resolve default_merge) k (⟨1, 0, 0⟩, level1 0, true))] else [])
        ++ (predEmits mid subsample data_sampler default_merge mosaic
              (merge.resolve default_merge) depth k (⟨1, 1, 0⟩, level1 1, false)
        ++ ((if depth ≥ (1 : Int) then
              [((⟨1, 1, 0⟩ : Pos),
                mergedGo mid subsample data_sampler default_merge mosaic
                  (merge.resolve default_merge) k (⟨1, 1, 0⟩, level1 1, false))] else [])
        ++ (predEmits mid subsample data_sampler default_merge mosaic
              (merge.resolve default_merge) depth k (⟨1, 1, 1⟩, level1 2, true)
        ++ ((if depth ≥ (1 : Int) then
              [((⟨1, 1, 1⟩ : Pos),
                mergedGo mid subsample data_sampler default_merge mosaic
                  (merge.resolve default_merge) k (⟨1, 1, 1⟩, level1 2, true))] else [])
        ++ (predEmits mid subsample data_sampler default_merge mosaic
              (merge.resolve default_merge) depth k (⟨1, 0, 1⟩, level1 3, false)
        ++ ((if depth ≥ (1 : Int) then
              [((⟨1, 0, 1⟩ : Pos),
                mergedGo mid subsample data_sampler default_merge mosaic
                  (merge.resolve default_merge) k (⟨1, 0, 1⟩, level1 3, false))] else [])
        ++ (if depth ≥ (0 : Int) then
              [((⟨0, 0, 0⟩ : Pos),
                ((merge.resolve default_merge).getD default_merge)
                  (mosaic
                    (mergedGo mid subsample data_sampler default_merge mosaic
                      (merge.resolve default_merge) k (⟨1, 0, 0⟩, level1 0, true))
                    (mergedGo mid subsample data_sampler default_merge mosaic
                      (merge.resolve default_merge) k (⟨1, 1, 0⟩, level1 1, false))
                    (mergedGo mid subsample data_sampler default_merge mosaic
                      (merge.resolve default_merge) k (⟨1, 0, 1⟩, level1 3, false))
                    (mergedGo mid subsample data_sampler default_merge mosaic
                      (merge.resolve default_merge) k (⟨1, 1, 1⟩, level1 2, true))))]
            else [])))))))) := by
  have hroot : ∀ c : Corners P, ∀ f : Bool, ∀ x y : Nat,
      (max depth 1 + 1 - ((((⟨1, x, y⟩ : Pos), c, f) : TileC P).1.n : Int)).toNat
        = k + 1 := by
    intro c f x y
    show (max depth 1 + 1 - ((1 : Nat) : Int)).toNat = k + 1
    omega
  have hlev : ∀ c : Corners P, ∀ f : Bool, ∀ x y : Nat,
      1 ≤ (((⟨1, x, y⟩ : Pos), c, f) : TileC P).1.n := by
    intro c f x y
    show 1 ≤ (1 : Nat)
    omega
  have hkeys : ∀ M : CMap Img, ∀ c : Corners P, ∀ f : Bool, ∀ x y : Nat,
      ∀ e ∈ [((⟨0, 0, 0⟩ : Pos), M)],
        ¬ inSub e.1 (((⟨1, x, y⟩ : Pos), c, f) : TileC P).1 := by
    intro M c f x y e he hs
    have he' : e = ((⟨0, 0, 0⟩ : Pos), M) := by simpa using he
    rw [he'] at hs
    have := inSub_le hs
    norm_num at this
  simp only [iterTilesRaw, hm]
  rw [iterCorners_eq, hk, List.append_assoc, List.append_assoc]
  rw [absorbFold_append]
  rw [run_on_subtree mid subsample data_sampler default_merge mosaic hm depth
    (max depth 1) k _ [] (hroot _ _ _ _) (hlev _ _ _ _) (by intro e he; cases he)]
  rw [trickle_root0 default_merge mosaic (merge.resolve default_merge) depth]
  rw [absorbFold_append]
  rw [run_on_subtree mid subsample data_sampler default_merge mosaic hm depth
    (max depth 1) k _ _ (hroot _ _ _ _) (hlev _ _ _ _) (hkeys _ _ _ _ _)]
  rw [trickle_root1 default_merge mosaic (merge.resolve default_merge) depth]
  rw [absorbFold_append]
  rw [run_on_subtree mid subsample data_sampler default_merge mosaic hm depth
    (max depth 1) k _ _ (hroot _ _ _ _) (hlev _ _ _ _) (hkeys _ _ _ _ _)]
  rw [trickle_root2 default_merge mosaic (merge.resolve default_merge) depth]
  rw [run_on_subtree mid subsample data_sampler default_merge mosaic hm depth
    (max depth 1) k _ _ (hroot _ _ _ _) (hlev _ _ _ _) (hkeys _ _ _ _ _)]
  rw [trickle_root3 default_merge mosaic (merge.resolve default_merge) depth]
  simp only [List.append_assoc]

/-- Levels in the four child segments of a root are at least 2. -/
theorem inner_levels {mid : P → P → P} {Dt : Int} {b : Bool} {k : Nat}
    {r : TileC P} (hr : r.1.n = 1) :
    ∀ q ∈ pfxGo mid Dt b k (childT mid r 0) ++ pfxGo mid Dt b k (childT mid r 1)
        ++ pfxGo mid Dt b k (childT mid r 2) ++ pfxGo mid Dt b k (childT mid r 3),
      2 ≤ q.1.n := by
  intro q hq
  simp only [List.mem_append] at hq
  have hgen : ∀ i, i < 4 → q ∈ pfxGo mid Dt b k (childT mid r i) → 2 ≤ q.1.n := by
    intro i hi hqi
    have h1 := inSub_le (mem_pfxGo hqi).1
    rw [childT_n hi, hr] at h1
    exact h1
  rcases hq with ((hq | hq) | hq) | hq
  · exact hgen 0 (by omega) hq
  · exact hgen 1 (by omega) hq
  · exact hgen 2 (by omega) hq
  · exact hgen 3 (by omega) hq

/-- One root segment of a non-merging run: the inner nodes are emitted with
sampled images and the root's own absorb call closes the segment. -/
theorem run_off_segment (mid : P → P → P)
    (subsample : P → P → P → P → Nat → Bool → Grid × Grid)
    (data_sampler : Grid → Grid → Img) (default_merge : Img → Img)
    (mosaic : Img → Img → Img → Img → Img) (depth Dt : Int) (k : Nat)
    (r : TileC P) (hr : r.1.n = 1) (A : Accum Img) :
    absorbFold subsample data_sampler default_merge mosaic none depth
        (pfxGo mid Dt false (k + 1) r) A
      = (offEmits subsample data_sampler depth
           (pfxGo mid Dt false k (childT mid r 0) ++ pfxGo mid Dt false k (childT mid r 1)
             ++ pfxGo mid Dt false k (childT mid r 2) ++ pfxGo mid Dt false k (childT mid r 3))
          ++ (trickleUp default_merge mosaic none depth
               (sampleTile subsample data_sampler r) r.1 A).1,
         (trickleUp default_merge mosaic none depth
               (sampleTile subsample data_sampler r) r.1 A).2) := by
  rw [pfxGo_succ, if_pos (Or.inr rfl)]
  rw [absorbFold_append]
  rw [run_off_list subsample data_sampler default_merge mosaic depth _ A (inner_levels hr)]
  simp [absorbFold]

/-- Full run of `iter_tiles` with `merge = False`: every traversal node is
emitted with its directly sampled image, and the four level-1 root images are
still accumulated and merged with `_default_merge` into the final level-0
tile. -/
theorem iterTilesRaw_off (mid : P → P → P) (level1 : Fin 4 → Corners P)
    (subsample : P → P → P → P → Nat → Bool → Grid × Grid)
    (data_sampler : Grid → Grid → Img) (default_merge : Img → Img)
    (mosaic : Img → Img → Img → Img → Img) (depth : Int)
    (k : Nat) (hk : (max depth 1).toNat = k + 1) :
    iterTilesRaw mid level1 subsample data_sampler default_merge mosaic depth .mfalse
      = offEmits subsample data_sampler depth
          (pfxGo mid (max depth 1) false k (childT mid (⟨1, 0, 0⟩, level1 0, true) 0)
            ++ pfxGo mid (max depth 1) false k (childT mid (⟨1, 0, 0⟩, level1 0, true) 1)
            ++ pfxGo mid (max depth 1) false k (childT mid (⟨1, 0, 0⟩, level1 0, true) 2)
            ++ pfxGo mid (max depth 1) false k (childT mid (⟨1, 0, 0⟩, level1 0, true) 3))
        ++ ((if depth ≥ (1 : Int) then
              [((⟨1, 0, 0⟩ : Pos),
                sampleTile subsample data_sampler ((⟨1, 0, 0⟩, level1 0, true) : TileC P))] else [])
        ++ (offEmits subsample data_sampler depth
          (pfxGo mid (max depth 1) false k (childT mid (⟨1, 1, 0⟩, level1 1, false) 0)
            ++ pfxGo mid (max depth 1) false k (childT mid (⟨1, 1, 0⟩, level1 1, false) 1)
            ++ pfxGo mid (max depth 1) false k (childT mid (⟨1, 1, 0⟩, level1 1, false) 2)
            ++ pfxGo mid (max depth 1) false k (childT mid (⟨1, 1, 0⟩, level1 1, false) 3))
        ++ ((if depth ≥ (1 : Int) then
              [((⟨1, 1, 0⟩ : Pos),
                sampleTile subsample data_sampler ((⟨1, 1, 0⟩, level1 1, false) : TileC P))] else [])
        ++ (offEmits subsample data_sampler depth
          (pfxGo mid (max depth 1) false k (childT mid (⟨1, 1, 1⟩, level1 2, true) 0)
            ++ pfxGo mid (max depth 1) false k (childT mid (⟨1, 1, 1⟩, level1 2, true) 1)
            ++ pfxGo mid (max depth 1) false k (childT mid (⟨1, 1, 1⟩, level1 2, true) 2)
            ++ pfxGo mid (max depth 1) false k (childT mid (⟨1, 1, 1⟩, level1 2, true) 3))
        ++ ((if depth ≥ (1 : Int) then
              [((⟨1, 1, 1⟩ : Pos),
                sampleTile subsample data_sampler ((⟨1, 1, 1⟩, level1 2, true) : TileC P))] else [])
        ++ (offEmits subsample data_sampler depth
          (pfxGo mid (max depth 1) false k (childT mid (⟨1, 0, 1⟩, level1 3, false) 0)
            ++ pfxGo mid (max depth 1) false k (childT mid (⟨1, 0, 1⟩, level1 3, false) 1)
            ++ pfxGo mid (max depth 1) false k (childT mid (⟨1, 0, 1⟩, level1 3, false) 2)
            ++ pfxGo mid (max depth 1) false k (childT mid (⟨1, 0, 1⟩, level1 3, false) 3))
        ++ ((if depth ≥ (1 : Int) then
              [((⟨1, 0, 1⟩ : Pos),
                sampleTile subsample data_sampler ((⟨1, 0, 1⟩, level1 3, false) : TileC P))] else [])
        ++ (if depth ≥ (0 : Int) then
              [((⟨0, 0, 0⟩ : Pos),
                default_merge
                  (mosaic
                    (sampleTile subsample data_sampler ((⟨1, 0, 0⟩, level1 0, true) : TileC P))
                    (sampleTile subsample data_sampler ((⟨1, 1, 0⟩, level1 1, false) : TileC P))
                    (sampleTile subsample data_sampler ((⟨1, 0, 1⟩, level1 3, false) : TileC P))
                    (sampleTile subsample data_sampler ((⟨1, 1, 1⟩, level1 2, true) : TileC P))))]
            else [])))))))) := by
  simp only [iterTilesRaw, MergeArg.resolve, Option.isSome_none]
  rw [iterCorners_eq, hk, List.append_assoc, List.append_assoc]
  rw [absorbFold_append]
  rw [run_off_segment mid subsample data_sampler default_merge mosaic depth
    (max depth 1) k _ rfl]
  rw [trickle_root0 default_merge mosaic none depth]
  rw [absorbFold_append]
  rw [run_off_segment mid subsample data_sampler default_merge mosaic depth
    (max depth 1) k _ rfl]
  rw [trickle_root1 default_merge mosaic none depth]
  rw [absorbFold_append]
  rw [run_off_segment mid subsample data_sampler default_merge mosaic depth
    (max depth 1) k _ rfl]
  rw [trickle_root2 default_merge mosaic none depth]
  rw [run_off_segment mid subsample data_sampler default_merge mosaic depth
    (max depth 1) k _ rfl]
  rw [trickle_root3 default_merge mosaic none depth]
  simp only [Option.getD_none, List.append_assoc]

/-- Emissions predicted inside a subtree sit strictly below the subtree
root. -/
theorem predEmits_levels {mid : P → P → P}
    {subsample : P → P → P → P → Nat → Bool → Grid × Grid}
    {data_sampler : Grid → Grid → Img} {default_merge : Img → Img}
    {mosaic : Img → Img → Img → Img → Img} {mrg : Option (Img → Img)}
    {depth : Int} :
    ∀ {k : Nat} {t : TileC P},
      ∀ e ∈ predEmits mid subsample data_sampler default_merge mosaic mrg depth k t,
        t.1.n + 1 ≤ e.1.n := by
  intro k
  induction k with
  | zero => intro t e he; simp [predEmits] at he
  | succ k ih =>
    intro t e he
    rw [predEmits] at he
    simp only [List.mem_append] at he
    have hone : ∀ i, i < 4 →
        e ∈ emitOne depth (childT mid t i).1
          (mergedGo mid subsample data_sampler default_merge mosaic mrg k (childT mid t i)) →
        t.1.n + 1 ≤ e.1.n := by
      intro i hi hei
      have : e.1 = (childT mid t i).1 := by
        simp only [emitOne] at hei
        split at hei
        · have he2 : e = ((childT mid t i).1,
              mergedGo mid subsample data_sampler default_merge mosaic mrg k
                (childT mid t i)) := by simpa using hei
          rw [he2]
        · simp at hei
      rw [this, childT_n hi]
    have hin : ∀ i, i < 4 →
        e ∈ predEmits mid subsample data_sampler default_merge mosaic mrg depth k
          (childT mid t i) →
        t.1.n + 1 ≤ e.1.n := by
      intro i hi hei
      have := ih e hei
      rw [childT_n hi] at this
      omega
    rcases he with ((((he | he) | (he | he)) | (he | he)) | (he | he))
    · exact hin 0 (by omega) he
    · exact hone 0 (by omega) he
    · exact hin 1 (by omega) he
    · exact hone 1 (by omega) he
    · exact hin 2 (by omega) he
    · exact hone 2 (by omega) he
    · exact hin 3 (by omega) he
    · exact hone 3 (by omega) he

/-- Every non-merging emission keeps the address of a listed tile. -/
theorem offEmits_mem_fst {subsample : P → P → P → P → Nat → Bool → Grid × Grid}
    {data_sampler : Grid → Grid → Img} {depth : Int} {L : List (TileC P)} :
    ∀ e ∈ offEmits subsample data_sampler depth L, ∃ q ∈ L, e.1 = q.1 := by
  intro e he
  simp only [offEmits, List.mem_filterMap] at he
  obtain ⟨q, hq, hval⟩ := he
  refine ⟨q, hq, ?_⟩
  split at hval
  · have he2 : (q.1, sampleTile subsample data_sampler q) = e := by simpa using hval
    rw [← he2]
  · cases hval

/-- Accumulator states while the merging run processes one subtree: every
intermediate state extends the entry-state `A` by entries of size at most 3
totalling at most `3·k` images, and the final state is that of the subtree's
single conceptual trickle call. -/
theorem states_on_subtree (mid : P → P → P)
    (subsample : P → P → P → P → Nat → Bool → Grid × Grid)
    (data_sampler : Grid → Grid → Img) (default_merge : Img → Img)
    (mosaic : Img → Img → Img → Img → Img) {mrg : Option (Img → Img)}
    (hm : mrg.isSome = true) (depth Dt : Int) :
    ∀ (k : Nat) (t : TileC P) (A : Accum Img),
      (Dt + 1 - (t.1.n : Int)).toNat = k + 1 →
      1 ≤ t.1.n →
      (∀ e ∈ A, ¬ inSub e.1 t.1) →
      ∀ S ∈ absorbStates subsample data_sampler default_merge mosaic mrg depth
          (pfxGo mid Dt true (k + 1) t) A,
        (∃ B, S = A ++ B ∧ (∀ e ∈ B, e.2.size ≤ 3) ∧ countA B ≤ 3 * k)
        ∨ S = (trickleUp default_merge mosaic mrg depth
            (mergedGo mid subsample data_sampler default_merge mosaic mrg k t)
            t.1 A).2 := by
  have hok : ∀ m : Nat, ¬(mrg.isNone = true ∧ m + 1 > 1) := by
    rintro m ⟨h1, _⟩
    rw [Option.isNone_iff_eq_none] at h1
    rw [h1] at hm
    cases hm
  intro k
  induction k with
  | zero =>
    intro t A hk _ _ S hS
    have hn : (t.1.n : Int) = Dt := by omega
    rw [pfxGo_succ] at hS
    simp only [pfxGo, List.nil_append, if_pos (Or.inl hn)] at hS
    simp only [absorbStates, List.mem_singleton] at hS
    exact Or.inr hS
  | succ k ih =>
    intro t A hk hn1 hA S hS
    have hAne : ∀ e ∈ A, e.1 ≠ t.1 := by
      intro e he heq
      exact hA e he (heq ▸ inSub_refl e.1)
    have hg : ¬ ((t.1.n : Int) = Dt ∨ (true : Bool) = false) := by
      rintro (h | h)
      · omega
      · cases h
    have hkeys1 : ∀ M : CMap Img, ∀ i, i < 4 →
        ∀ e ∈ A ++ [(t.1, M)], ¬ inSub e.1 (childT mid t i).1 := by
      intro M i hi e he hs
      rcases List.mem_append.1 he with he | he
      · exact hA e he (inSub_childT hi hs)
      · have he2 : e.1 = t.1 := by
          have : e = (t.1, M) := by simpa using he
          rw [this]
        rw [he2] at hs
        have := inSub_le hs
        rw [childT_n hi] at this
        omega
    have hkeys0 : ∀ i, i < 4 → ∀ e ∈ A, ¬ inSub e.1 (childT mid t i).1 := by
      intro i hi e he hs
      exact hA e he (inSub_childT hi hs)
    have hF0 : (absorbFold subsample data_sampler default_merge mosaic mrg depth
        (pfxGo mid Dt true (k + 1) (childT mid t 0)) A).2
        = A ++ [(t.1, ⟨some (mergedGo mid subsample data_sampler default_merge mosaic mrg k
            (childT mid t 0)), none, none, none⟩)] := by
      rw [run_on_subtree mid subsample data_sampler default_merge mosaic hm depth Dt k _ A
        (childT_gap (by omega) hk) (by rw [childT_n (by omega : (0:Nat) < 4)]; omega)
        (hkeys0 0 (by omega))]
      show (trickleUp default_merge mosaic mrg depth _ (childT mid t 0).1 A).2 = _
      rw [childT0_pos mid t,
        trickle_child0 default_merge mosaic mrg depth t.1 _ A (hok _) hAne]
    have hF1 : (absorbFold subsample data_sampler default_merge mosaic mrg depth
        (pfxGo mid Dt true (k + 1) (childT mid t 1))
        (A ++ [(t.1, ⟨some (mergedGo mid subsample data_sampler default_merge mosaic mrg k
            (childT mid t 0)), none, none, none⟩)])).2
        = A ++ [(t.1, ⟨some (mergedGo mid subsample data_sampler default_merge mosaic mrg k
            (childT mid t 0)),
          some (mergedGo mid subsample data_sampler default_merge mosaic mrg k
            (childT mid t 1)), none, none⟩)] := by
      rw [run_on_subtree mid subsample data_sampler default_merge mosaic hm depth Dt k _ _
        (childT_gap (by omega) hk) (by rw [childT_n (by omega : (1:Nat) < 4)]; omega)
        (hkeys1 _ 1 (by omega))]
      show (trickleUp default_merge mosaic mrg depth _ (childT mid t 1).1 _).2 = _
      rw [childT1_pos mid t,
        trickle_child1 default_merge mosaic mrg depth t.1 _ _ A (hok _) hAne]
    have hF2 : (absorbFold subsample data_sampler default_merge mosaic mrg depth
        (pfxGo mid Dt true (k + 1) (childT mid t 2))
        (A ++ [(t.1, ⟨some (mergedGo mid subsample data_sampler default_merge mosaic mrg k
            (childT mid t 0)),
          some (mergedGo mid subsample data_sampler default_merge mosaic mrg k
            (childT mid t 1)), none, none⟩)])).2
        = A ++ [(t.1, ⟨some (mergedGo mid subsample data_sampler default_merge mosaic mrg k
            (childT mid t 0)),
          some (mergedGo mid subsample data_sampler default_merge mosaic mrg k
            (childT mid t 1)),
          some (mergedGo mid subsample data_sampler default_merge mosaic mrg k
            (childT mid t 2)), none⟩)] := by
      rw [run_on_subtree mid subsample data_sampler default_merge mosaic hm depth Dt k _ _
        (childT_gap (by omega) hk) (by rw [childT_n (by omega : (2:Nat) < 4)]; omega)
        (hkeys1 _ 2 (by omega))]
      show (trickleUp default_merge mosaic mrg depth _ (childT mid t 2).1 _).2 = _
      rw [childT2_pos mid t,
        trickle_child2 default_merge mosaic mrg depth t.1 _ _ _ A (hok _) hAne]
    rw [pfxGo_succ, if_neg hg, List.append_nil, List.append_assoc,
      List.append_assoc] at hS
    rw [absorbStates_append] at hS
    rw [absorbStates_append, hF0] at hS
    rw [absorbStates_append, hF1] at hS
    rw [hF2] at hS
    simp only [List.mem_append] at hS
    rcases hS with hS | hS | hS | hS
    · rcases ih (childT mid t 0) A (childT_gap (by omega) hk)
        (by rw [childT_n (by omega : (0:Nat) < 4)]; omega) (hkeys0 0 (by omega)) S hS with
        ⟨B, hSB, hsz, hct⟩ | hS2
      · exact Or.inl ⟨B, hSB, hsz, by omega⟩
      · refine Or.inl ⟨[(t.1, ⟨some (mergedGo mid subsample data_sampler default_merge mosaic
          mrg k (childT mid t 0)), none, none, none⟩)], ?_, ?_, ?_⟩
        · rw [hS2]
          show (trickleUp default_merge mosaic mrg depth _ (childT mid t 0).1 A).2 = _
          rw [childT0_pos mid t,
            trickle_child0 default_merge mosaic mrg depth t.1 _ A (hok _) hAne]
        · intro e he
          have : e = (t.1, ⟨some (mergedGo mid subsample data_sampler default_merge mosaic
              mrg k (childT mid t 0)), none, none, none⟩) := by simpa using he
          rw [this]
          show (1 : Nat) ≤ 3
          omega
        · show countA _ ≤ 3 * (k + 1)
          simp [countA, CMap.size]
          all_goals omega
    · rcases ih (childT mid t 1) _ (childT_gap (by omega) hk)
        (by rw [childT_n (by omega : (1:Nat) < 4)]; omega) (hkeys1 _ 1 (by omega)) S hS with
        ⟨B, hSB, hsz, hct⟩ | hS2
      · refine Or.inl ⟨[(t.1, (⟨some (mergedGo mid subsample data_sampler default_merge mosaic mrg k
            (childT mid t 0)), none, none, none⟩ : CMap Img))] ++ B, by rw [hSB, List.append_assoc], ?_, ?_⟩
        · intro e he
          rcases List.mem_append.1 he with he | he
          · have : e = (t.1, ⟨some (mergedGo mid subsample data_sampler default_merge mosaic
                mrg k (childT mid t 0)), none, none, none⟩) := by simpa using he
            rw [this]
            show (1 : Nat) ≤ 3
            omega
          · exact hsz e he
        · rw [countA_append]
          have : countA [((t.1 : Pos), (⟨some (mergedGo mid subsample data_sampler
              default_merge mosaic mrg k (childT mid t 0)), none, none, none⟩ : CMap Img))]
              = 1 := by simp [countA, CMap.size]
          omega
      · refine Or.inl ⟨[(t.1, ⟨some (mergedGo mid subsample data_sampler default_merge mosaic
          mrg k (childT mid t 0)),
          some (mergedGo mid subsample data_sampler default_merge mosaic mrg k
            (childT mid t 1)), none, none⟩)], ?_, ?_, ?_⟩
        · rw [hS2]
          show (trickleUp default_merge mosaic mrg depth _ (childT mid t 1).1 _).2 = _
          rw [childT1_pos mid t,
            trickle_child1 default_merge mosaic mrg depth t.1 _ _ A (hok _) hAne]
        · intro e he
          have : e = (t.1, ⟨some (mergedGo mid subsample data_sampler default_merge mosaic
              mrg k (childT mid t 0)),
            some (mergedGo mid subsample data_sampler default_merge mosaic mrg k
              (childT mid t 1)), none, none⟩) := by simpa using he
          rw [this]
          show (2 : Nat) ≤ 3
          omega
        · show countA _ ≤ 3 * (k + 1)
          simp [countA, CMap.size]
          all_goals omega
    · rcases ih (childT mid t 2) _ (childT_gap (by omega) hk)
        (by rw [childT_n (by omega : (2:Nat) < 4)]; omega) (hkeys1 _ 2 (by omega)) S hS with
        ⟨B, hSB, hsz, hct⟩ | hS2
      · refine Or.inl ⟨[(t.1, (⟨some (mergedGo mid subsample data_sampler default_merge mosaic mrg k
            (childT mid t 0)),
          some (mergedGo mid subsample data_sampler default_merge mosaic mrg k
            (childT mid t 1)), none, none⟩ : CMap Img))] ++ B, by rw [hSB, List.append_assoc], ?_, ?_⟩
        · intro e he
          rcases List.mem_append.1 he with he | he
          · have : e = (t.1, ⟨some (mergedGo mid subsample data_sampler default_merge mosaic
                mrg k (childT mid t 0)),
              some (mergedGo mid subsample data_sampler default_merge mosaic mrg k
                (childT mid t 1)), none, none⟩) := by simpa using he
            rw [this]
            show (2 : Nat) ≤ 3
            omega
          · exact hsz e he
        · rw [countA_append]
          have : countA [((t.1 : Pos), (⟨some (mergedGo mid subsample data_sampler
              default_merge mosaic mrg k (childT mid t 0)),
            some (mergedGo mid subsample data_sampler default_merge mosaic mrg k
              (childT mid t 1)), none, none⟩ : CMap Img))] = 2 := by
            simp [countA, CMap.size]
          all_goals omega
      · refine Or.inl ⟨[(t.1, ⟨some (mergedGo mid subsample data_sampler default_merge mosaic
          mrg k (childT mid t 0)),
          some (mergedGo mid subsample data_sampler default_merge mosaic mrg k
            (childT mid t 1)),
          some (mergedGo mid subsample data_sampler default_merge mosaic mrg k
            (childT mid t 2)), none⟩)], ?_, ?_, ?_⟩
        · rw [hS2]
          show (trickleUp default_merge mosaic mrg depth _ (childT mid t 2).1 _).2 = _
          rw [childT2_pos mid t,
            trickle_child2 default_merge mosaic mrg depth t.1 _ _ _ A (hok _) hAne]
        · intro e he
          have : e = (t.1, ⟨some (mergedGo mid subsample data_sampler default_merge mosaic
              mrg k (childT mid t 0)),
            some (mergedGo mid subsample data_sampler default_merge mosaic mrg k
              (childT mid t 1)),
            some (mergedGo mid subsample data_sampler default_merge mosaic mrg k
              (childT mid t 2)), none⟩) := by simpa using he
          rw [this]
          show (3 : Nat) ≤ 3
          omega
        · show countA _ ≤ 3 * (k + 1)
          simp [countA, CMap.size]
    · rcases ih (childT mid t 3) _ (childT_gap (by omega) hk)
        (by rw [childT_n (by omega : (3:Nat) < 4)]; omega) (hkeys1 _ 3 (by omega)) S hS with
        ⟨B, hSB, hsz, hct⟩ | hS2
      · refine Or.inl ⟨[(t.1, (⟨some (mergedGo mid subsample data_sampler default_merge mosaic mrg k
            (childT mid t 0)),
          some (mergedGo mid subsample data_sampler default_merge mosaic mrg k
            (childT mid t 1)),
          some (mergedGo mid subsample data_sampler default_merge mosaic mrg k
            (childT mid t 2)), none⟩ : CMap Img))] ++ B, by rw [hSB, List.append_assoc], ?_, ?_⟩
        · intro e he
          rcases List.mem_append.1 he with he | he
          · have : e = (t.1, ⟨some (mergedGo mid subsample data_sampler default_merge mosaic
                mrg k (childT mid t 0)),
              some (mergedGo mid subsample data_sampler default_merge mosaic mrg k
                (childT mid t 1)),
              some (mergedGo mid subsample data_sampler default_merge mosaic mrg k
                (childT mid t 2)), none⟩) := by simpa using he
            rw [this]
            show (3 : Nat) ≤ 3
            omega
          · exact hsz e he
        · rw [countA_append]
          have : countA [((t.1 : Pos), (⟨some (mergedGo mid subsample data_sampler
              default_merge mosaic mrg k (childT mid t 0)),
            some (mergedGo mid subsample data_sampler default_merge mosaic mrg k
              (childT mid t 1)),
            some (mergedGo mid subsample data_sampler default_merge mosaic mrg k
              (childT mid t 2)), none⟩ : CMap Img))] = 3 := by
            simp [countA, CMap.size]
          all_goals omega
      · refine Or.inr ?_
        rw [hS2]
        show (trickleUp default_merge mosaic mrg depth _ (childT mid t 3).1 _).2 = _
        rw [childT3_pos mid t,
          trickle_child3 default_merge mosaic mrg depth t.1 _ _ _ _ A (hok _) hAne]
        rfl

/-- Accumulator states of a non-merging run over level-≥2 tiles never
change. -/
theorem states_off_list (subsample : P → P → P → P → Nat → Bool → Grid × Grid)
    (data_sampler : Grid → Grid → Img) (default_merge : Img → Img)
    (mosaic : Img → Img → Img → Img → Img) (depth : Int) :
    ∀ (L : List (TileC P)) (A : Accum Img), (∀ q ∈ L, 2 ≤ q.1.n) →
      absorbStates subsample data_sampler default_merge mosaic none depth L A
        = L.map fun _ => A := by
  intro L
  induction L with
  | nil => intro A _; rfl
  | cons t ts ih =>
    intro A h2
    simp only [absorbStates, List.map_cons]
    rw [trickle_off_skip default_merge mosaic depth (h2 t (List.mem_cons_self _ _)) _ A]
    exact congrArg _ (ih A fun q hq => h2 q (List.mem_cons_of_mem _ hq))

/-- Accumulator states over a full merging run: every observed state has
entries of size at most 3 and at most `3 * (k + 1)` pending images in
total. -/
theorem states_run_on_bound (mid : P → P → P) (level1 : Fin 4 → Corners P)
    (subsample : P → P → P → P → Nat → Bool → Grid × Grid)
    (data_sampler : Grid → Grid → Img) (default_merge : Img → Img)
    (mosaic : Img → Img → Img → Img → Img)
    (mrg : Option (Img → Img)) (hm : mrg.isSome = true) (depth : Int)
    (k : Nat) (hk : (max depth 1).toNat = k + 1) :
    ∀ S ∈ absorbStates subsample data_sampler default_merge mosaic mrg depth
        (iterCorners mid level1 (max depth 1) true) ([] : Accum Img),
      (∀ e ∈ S, e.2.size ≤ 3) ∧ countA S ≤ 3 * (k + 1) := by
  have hroot : ∀ c : Corners P, ∀ f : Bool, ∀ x y : Nat,
      (max depth 1 + 1 - ((((⟨1, x, y⟩ : Pos), c, f) : TileC P).1.n : Int)).toNat
        = k + 1 := by
    intro c f x y
    show (max depth 1 + 1 - ((1 : Nat) : Int)).toNat = k + 1
    omega
  have hlev : ∀ c : Corners P, ∀ f : Bool, ∀ x y : Nat,
      1 ≤ (((⟨1, x, y⟩ : Pos), c, f) : TileC P).1.n := by
    intro c f x y
    show 1 ≤ (1 : Nat)
    omega
  have hkeys : ∀ M : CMap Img, ∀ c : Corners P, ∀ f : Bool, ∀ x y : Nat,
      ∀ e ∈ [((⟨0, 0, 0⟩ : Pos), M)],
        ¬ inSub e.1 (((⟨1, x, y⟩ : Pos), c, f) : TileC P).1 := by
    intro M c f x y e he hs
    have he' : e = ((⟨0, 0, 0⟩ : Pos), M) := by simpa using he
    rw [he'] at hs
    have := inSub_le hs
    norm_num at this
  intro S hS
  rw [iterCorners_eq, hk, List.append_assoc, List.append_assoc] at hS
  rw [absorbStates_append] at hS
  rw [run_on_subtree mid subsample data_sampler default_merge mosaic hm depth
    (max depth 1) k _ [] (hroot _ _ _ _) (hlev _ _ _ _) (by intro e he; cases he),
    trickle_root0 default_merge mosaic mrg depth] at hS
  dsimp only at hS
  rw [absorbStates_append] at hS
  rw [run_on_subtree mid subsample data_sampler default_merge mosaic hm depth
    (max depth 1) k _ _ (hroot _ _ _ _) (hlev _ _ _ _) (hkeys _ _ _ _ _),
    trickle_root1 default_merge mosaic mrg depth] at hS
  dsimp only at hS
  rw [absorbStates_append] at hS
  rw [run_on_subtree mid subsample data_sampler default_merge mosaic hm depth
    (max depth 1) k _ _ (hroot _ _ _ _) (hlev _ _ _ _) (hkeys _ _ _ _ _),
    trickle_root2 default_merge mosaic mrg depth] at hS
  dsimp only at hS
  simp only [List.mem_append] at hS
  rcases hS with hS | hS | hS | hS
  · rcases states_on_subtree mid subsample data_sampler default_merge mosaic hm depth
      (max depth 1) k _ [] (hroot _ _ _ _) (hlev _ _ _ _) (by intro e he; cases he)
      S hS with ⟨B, hSB, hsz, hct⟩ | hfin
    · rw [hSB, List.nil_append]
      exact ⟨hsz, by omega⟩
    · rw [trickle_root0 default_merge mosaic mrg depth] at hfin
      dsimp only at hfin
      subst hfin
      refine ⟨?_, ?_⟩
      · intro e he
        have he' : e = ((⟨0, 0, 0⟩ : Pos),
            (⟨some (mergedGo mid subsample data_sampler default_merge mosaic mrg k
              (⟨1, 0, 0⟩, level1 0, true)), none, none, none⟩ : CMap Img)) := by
          simpa using he
        rw [he']
        show (1 : Nat) ≤ 3
        omega
      · have h1 : countA [((⟨0, 0, 0⟩ : Pos),
            (⟨some (mergedGo mid subsample data_sampler default_merge mosaic mrg k
              (⟨1, 0, 0⟩, level1 0, true)), none, none, none⟩ : CMap Img))] = 1 := by
          simp [countA, CMap.size]
        omega
  · rcases states_on_subtree mid subsample data_sampler default_merge mosaic hm depth
      (max depth 1) k _ _ (hroot _ _ _ _) (hlev _ _ _ _) (hkeys _ _ _ _ _)
      S hS with ⟨B, hSB, hsz, hct⟩ | hfin
    · rw [hSB]
      refine ⟨?_, ?_⟩
      · intro e he
        rcases List.mem_append.1 he with he | he
        · have he' : e = ((⟨0, 0, 0⟩ : Pos),
              (⟨some (mergedGo mid subsample data_sampler default_merge mosaic mrg k
                (⟨1, 0, 0⟩, level1 0, true)), none, none, none⟩ : CMap Img)) := by
            simpa using he
          rw [he']
          show (1 : Nat) ≤ 3
          omega
        · exact hsz e he
      · rw [countA_append]
        have h1 : countA [((⟨0, 0, 0⟩ : Pos),
            (⟨some (mergedGo mid subsample data_sampler default_merge mosaic mrg k
              (⟨1, 0, 0⟩, level1 0, true)), none, none, none⟩ : CMap Img))] = 1 := by
          simp [countA, CMap.size]
        omega
    · rw [trickle_root1 default_merge mosaic mrg depth] at hfin
      dsimp only at hfin
      subst hfin
      refine ⟨?_, ?_⟩
      · intro e he
        have he' : e = ((⟨0, 0, 0⟩ : Pos),
            (⟨some (mergedGo mid subsample data_sampler default_merge mosaic mrg k
              (⟨1, 0, 0⟩, level1 0, true)),
             some (mergedGo mid subsample data_sampler default_merge mosaic mrg k
              (⟨1, 1, 0⟩, level1 1, false)), none, none⟩ : CMap Img)) := by
          simpa using he
        rw [he']
        show (2 : Nat) ≤ 3
        omega
      · have h1 : countA [((⟨0, 0, 0⟩ : Pos),
            (⟨some (mergedGo mid subsample data_sampler default_merge mosaic mrg k
              (⟨1, 0, 0⟩, level1 0, true)),
             some (mergedGo mid subsample data_sampler default_merge mosaic mrg k
              (⟨1, 1, 0⟩, level1 1, false)), none, none⟩ : CMap Img))] = 2 := by
          simp [countA, CMap.size]
        omega
  · rcases states_on_subtree mid subsample data_sampler default_merge mosaic hm depth
      (max depth 1) k _ _ (hroot _ _ _ _) (hlev _ _ _ _) (hkeys _ _ _ _ _)
      S hS with ⟨B, hSB, hsz, hct⟩ | hfin
    · rw [hSB]
      refine ⟨?_, ?_⟩
      · intro e he
        rcases List.mem_append.1 he with he | he
        · have he' : e = ((⟨0, 0, 0⟩ : Pos),
              (⟨some (mergedGo mid subsample data_sampler default_merge mosaic mrg k
                (⟨1, 0, 0⟩, level1 0, true)),
               some (mergedGo mid subsample data_sampler default_merge mosaic mrg k
                (⟨1, 1, 0⟩, level1 1, false)), none, none⟩ : CMap Img)) := by
            simpa using he
          rw [he']
          show (2 : Nat) ≤ 3
          omega
        · exact hsz e he
      · rw [countA_append]
        have h1 : countA [((⟨0, 0, 0⟩ : Pos),
            (⟨some (mergedGo mid subsample data_sampler default_merge mosaic mrg k
              (⟨1, 0, 0⟩, level1 0, true)),
             some (mergedGo mid subsample data_sampler default_merge mosaic mrg k
              (⟨1, 1, 0⟩, level1 1, false)), none, none⟩ : CMap Img))] = 2 := by
          simp [countA, CMap.size]
        omega
    · rw [trickle_root2 default_merge mosaic mrg depth] at hfin
      dsimp only at hfin
      subst hfin
      refine ⟨?_, ?_⟩
      · intro e he
        have he' : e = ((⟨0, 0, 0⟩ : Pos),
            (⟨some (mergedGo mid subsample data_sampler default_merge mosaic mrg k
              (⟨1, 0, 0⟩, level1 0, true)),
             some (mergedGo mid subsample data_sampler default_merge mosaic mrg k
              (⟨1, 1, 0⟩, level1 1, false)), none,
             some (mergedGo mid subsample data_sampler default_merge mosaic mrg k
              (⟨1, 1, 1⟩, level1 2, true))⟩ : CMap Img)) := by
          simpa using he
        rw [he']
        show (3 : Nat) ≤ 3
        omega
      · have h1 : countA [((⟨0, 0, 0⟩ : Pos),
            (⟨some (mergedGo mid subsample data_sampler default_merge mosaic mrg k
              (⟨1, 0, 0⟩, level1 0, true)),
             some (mergedGo mid subsample data_sampler default_merge mosaic mrg k
              (⟨1, 1, 0⟩, level1 1, false)), none,
             some (mergedGo mid subsample data_sampler default_merge mosaic mrg k
              (⟨1, 1, 1⟩, level1 2, true))⟩ : CMap Img))] = 3 := by
          simp [countA, CMap.size]
        omega
  · rcases states_on_subtree mid subsample data_sampler default_merge mosaic hm depth
      (max depth 1) k _ _ (hroot _ _ _ _) (hlev _ _ _ _) (hkeys _ _ _ _ _)
      S hS with ⟨B, hSB, hsz, hct⟩ | hfin
    · rw [hSB]
      refine ⟨?_, ?_⟩
      · intro e he
        rcases List.mem_append.1 he with he | he
        · have he' : e = ((⟨0, 0, 0⟩ : Pos),
              (⟨some (mergedGo mid subsample data_sampler default_merge mosaic mrg k
                (⟨1, 0, 0⟩, level1 0, true)),
               some (mergedGo mid subsample data_sampler default_merge mosaic mrg k
                (⟨1, 1, 0⟩, level1 1, false)), none,
               some (mergedGo mid subsample data_sampler default_merge mosaic mrg k
                (⟨1, 1, 1⟩, level1 2, true))⟩ : CMap Img)) := by
            simpa using he
          rw [he']
          show (3 : Nat) ≤ 3
          omega
        · exact hsz e he
      · rw [countA_append]
        have h1 : countA [((⟨0, 0, 0⟩ : Pos),
            (⟨some (mergedGo mid subsample data_sampler default_merge mosaic mrg k
              (⟨1, 0, 0⟩, level1 0, true)),
             some (mergedGo mid subsample data_sampler default_merge mosaic mrg k
              (⟨1, 1, 0⟩, level1 1, false)), none,
             some (mergedGo mid subsample data_sampler default_merge mosaic mrg k
              (⟨1, 1, 1⟩, level1 2, true))⟩ : CMap Img))] = 3 := by
          simp [countA, CMap.size]
        omega
    · rw [trickle_root3 default_merge mosaic mrg depth] at hfin
      dsimp only at hfin
      subst hfin
      exact ⟨fun e he => absurd he (List.not_mem_nil e), by simp [countA]⟩

/-- Accumulator states over a full non-merging run: only the four level-1
root images ever accumulate, so every observed state has entries of size at
most 3 and at most 3 pending images in total. -/
theorem states_run_off_bound (mid : P → P → P) (level1 : Fin 4 → Corners P)
    (subsample : P → P → P → P → Nat → Bool → Grid × Grid)
    (data_sampler : Grid → Grid → Img) (default_merge : Img → Img)
    (mosaic : Img → Img → Img → Img → Img) (depth : Int)
    (k : Nat) (hk : (max depth 1).toNat = k + 1) :
    ∀ S ∈ absorbStates subsample data_sampler default_merge mosaic
        (none : Option (Img → Img)) depth
        (iterCorners mid level1 (max depth 1) false) ([] : Accum Img),
      (∀ e ∈ S, e.2.size ≤ 3) ∧ countA S ≤ 3 := by
  intro S hS
  rw [iterCorners_eq, hk, List.append_assoc, List.append_assoc] at hS
  rw [absorbStates_append] at hS
  rw [run_off_segment mid subsample data_sampler default_merge mosaic depth
    (max depth 1) k _ rfl, trickle_root0 default_merge mosaic none depth] at hS
  dsimp only at hS
  rw [absorbStates_append] at hS
  rw [run_off_segment mid subsample data_sampler default_merge mosaic depth
    (max depth 1) k _ rfl, trickle_root1 default_merge mosaic none depth] at hS
  dsimp only at hS
  rw [absorbStates_append] at hS
  rw [run_off_segment mid subsample data_sampler default_merge mosaic depth
    (max depth 1) k _ rfl, trickle_root2 default_merge mosaic none depth] at hS
  dsimp only at hS
  simp only [List.mem_append] at hS
  have hseg : ∀ (A : Accum Img) (r : TileC P), r.1.n = 1 →
      S ∈ absorbStates subsample data_sampler default_merge mosaic none depth
        (pfxGo mid (max depth 1) false (k + 1) r) A →
      S = A ∨ S = (trickleUp default_merge mosaic none depth
        (sampleTile subsample data_sampler r) r.1 A).2 := by
    intro A r hr hSr
    rw [pfxGo_succ, if_pos (Or.inr rfl)] at hSr
    rw [absorbStates_append] at hSr
    rw [states_off_list subsample data_sampler default_merge mosaic depth _ A
      (inner_levels hr)] at hSr
    rw [run_off_list subsample data_sampler default_merge mosaic depth _ A
      (inner_levels hr)] at hSr
    dsimp only at hSr
    rcases List.mem_append.1 hSr with hSr | hSr
    · obtain ⟨q, _, hq⟩ := List.mem_map.1 hSr
      exact Or.inl hq.symm
    · simp only [absorbStates, List.mem_singleton] at hSr
      exact Or.inr hSr
  rcases hS with hS | hS | hS | hS
  · rcases hseg [] _ rfl hS with hS2 | hS2
    · subst hS2
      exact ⟨fun e he => absurd he (List.not_mem_nil e), by simp [countA]⟩
    · rw [trickle_root0 default_merge mosaic none depth] at hS2
      dsimp only at hS2
      subst hS2
      refine ⟨?_, ?_⟩
      · intro e he
        have he' : e = ((⟨0, 0, 0⟩ : Pos),
            (⟨some (sampleTile subsample data_sampler
              ((⟨1, 0, 0⟩, level1 0, true) : TileC P)), none, none, none⟩ : CMap Img)) := by
          simpa using he
        rw [he']
        show (1 : Nat) ≤ 3
        omega
      · show countA _ ≤ 3
        have h1 : countA [((⟨0, 0, 0⟩ : Pos),
            (⟨some (sampleTile subsample data_sampler
              ((⟨1, 0, 0⟩, level1 0, true) : TileC P)), none, none, none⟩ : CMap Img))]
            = 1 := by
          simp [countA, CMap.size]
        omega
  · rcases hseg _ _ rfl hS with hS2 | hS2
    · subst hS2
      refine ⟨?_, ?_⟩
      · intro e he
        have he' : e = ((⟨0, 0, 0⟩ : Pos),
            (⟨some (sampleTile subsample data_sampler
              ((⟨1, 0, 0⟩, level1 0, true) : TileC P)), none, none, none⟩ : CMap Img)) := by
          simpa using he
        rw [he']
        show (1 : Nat) ≤ 3
        omega
      · show countA _ ≤ 3
        have h1 : countA [((⟨0, 0, 0⟩ : Pos),
            (⟨some (sampleTile subsample data_sampler
              ((⟨1, 0, 0⟩, level1 0, true) : TileC P)), none, none, none⟩ : CMap Img))]
            = 1 := by
          simp [countA, CMap.size]
        omega
    · rw [trickle_root1 default_merge mosaic none depth] at hS2
      dsimp only at hS2
      subst hS2
      refine ⟨?_, ?_⟩
      · intro e he
        have he' : e = ((⟨0, 0, 0⟩ : Pos),
            (⟨some (sampleTile subsample data_sampler
              ((⟨1, 0, 0⟩, level1 0, true) : TileC P)),
             some (sampleTile subsample data_sampler
              ((⟨1, 1, 0⟩, level1 1, false) : TileC P)), none, none⟩ : CMap Img)) := by
          simpa using he
        rw [he']
        show (2 : Nat) ≤ 3
        omega
      · show countA _ ≤ 3
        have h1 : countA [((⟨0, 0, 0⟩ : Pos),
            (⟨some (sampleTile subsample data_sampler
              ((⟨1, 0, 0⟩, level1 0, true) : TileC P)),
             some (sampleTile subsample data_sampler
              ((⟨1, 1, 0⟩, level1 1, false) : TileC P)), none, none⟩ : CMap Img))]
            = 2 := by
          simp [countA, CMap.size]
        omega
  · rcases hseg _ _ rfl hS with hS2 | hS2
    · subst hS2
      refine ⟨?_, ?_⟩
      · intro e he
        have he' : e = ((⟨0, 0, 0⟩ : Pos),
            (⟨some (sampleTile subsample data_sampler
              ((⟨1, 0, 0⟩, level1 0, true) : TileC P)),
             some (sampleTile subsample data_sampler
              ((⟨1, 1, 0⟩, level1 1, false) : TileC P)), none, none⟩ : CMap Img)) := by
          simpa using he
        rw [he']
        show (2 : Nat) ≤ 3
        omega
      · show countA _ ≤ 3
        have h1 : countA [((⟨0, 0, 0⟩ : Pos),
            (⟨some (sampleTile subsample data_sampler
              ((⟨1, 0, 0⟩, level1 0, true) : TileC P)),
             some (sampleTile subsample data_sampler
              ((⟨1, 1, 0⟩, level1 1, false) : TileC P)), none, none⟩ : CMap Img))]
            = 2 := by
          simp [countA, CMap.size]
        omega
    · rw [trickle_root2 default_merge mosaic none depth] at hS2
      dsimp only at hS2
      subst hS2
      refine ⟨?_, ?_⟩
      · intro e he
        have he' : e = ((⟨0, 0, 0⟩ : Pos),
            (⟨some (sampleTile subsample data_sampler
              ((⟨1, 0, 0⟩, level1 0, true) : TileC P)),
             some (sampleTile subsample data_sampler
              ((⟨1, 1, 0⟩, level1 1, false) : TileC P)), none,
             some (sampleTile subsample data_sampler
              ((⟨1, 1, 1⟩, level1 2, true) : TileC P))⟩ : CMap Img)) := by
          simpa using he
        rw [he']
        show (3 : Nat) ≤ 3
        omega
      · show countA _ ≤ 3
        have h1 : countA [((⟨0, 0, 0⟩ : Pos),
            (⟨some (sampleTile subsample data_sampler
              ((⟨1, 0, 0⟩, level1 0, true) : TileC P)),
             some (sampleTile subsample data_sampler
              ((⟨1, 1, 0⟩, level1 1, false) : TileC P)), none,
             some (sampleTile subsample data_sampler
              ((⟨1, 1, 1⟩, level1 2, true) : TileC P))⟩ : CMap Img))]
            = 3 := by
          simp [countA, CMap.size]
        omega
  · rcases hseg _ _ rfl hS with hS2 | hS2
    · subst hS2
      refine ⟨?_, ?_⟩
      · intro e he
        have he' : e = ((⟨0, 0, 0⟩ : Pos),
            (⟨some (sampleTile subsample data_sampler
              ((⟨1, 0, 0⟩, level1 0, true) : TileC P)),
             some (sampleTile subsample data_sampler
              ((⟨1, 1, 0⟩, level1 1, false) : TileC P)), none,
             some (sampleTile subsample data_sampler
              ((⟨1, 1, 1⟩, level1 2, true) : TileC P))⟩ : CMap Img)) := by
          simpa using he
        rw [he']
        show (3 : Nat) ≤ 3
        omega
      · show countA _ ≤ 3
        have h1 : countA [((⟨0, 0, 0⟩ : Pos),
            (⟨some (sampleTile subsample data_sampler
              ((⟨1, 0, 0⟩, level1 0, true) : TileC P)),
             some (sampleTile subsample data_sampler
              ((⟨1, 1, 0⟩, level1 1, false) : TileC P)), none,
             some (sampleTile subsample data_sampler
              ((⟨1, 1, 1⟩, level1 2, true) : TileC P))⟩ : CMap Img))]
            = 3 := by
          simp [countA, CMap.size]
        omega
    · rw [trickle_root3 default_merge mosaic none depth] at hS2
      dsimp only at hS2
      subst hS2
      exact ⟨fun e he => absurd he (List.not_mem_nil e), by simp [countA]⟩

/-- Reassociating a nine-list chain into "prefix plus final singleton". -/
theorem append_concat_shape {α : Type _} (a b c d e f g h : List α) (x : α) :
    a ++ (b ++ (c ++ (d ++ (e ++ (f ++ (g ++ (h ++ [x])))))))
      = (a ++ (b ++ (c ++ (d ++ (e ++ (f ++ (g ++ h))))))) ++ [x] := by
  simp [List.append_assoc]

/-- Membership in a guarded singleton pins the element down. -/
theorem mem_if_singleton {α : Type _} {c : Prop} [Decidable c] {x e : α}
    (he : e ∈ (if c then [x] else [])) : e = x := by
  split at he
  · simpa using he
  · cases he

/-- A merging run within depth ends with the level-0 tile merged from the
four root images, all earlier emissions having level at least 1. -/
theorem run_concat_on (mid : P → P → P) (level1 : Fin 4 → Corners P)
    (subsample : P → P → P → P → Nat → Bool → Grid × Grid)
    (data_sampler : Grid → Grid → Img) (default_merge : Img → Img)
    (mosaic : Img → Img → Img → Img → Img)
    (depth : Int) (hd : 0 ≤ depth) (merge : MergeArg Img)
    (hm : (merge.resolve default_merge).isSome = true) :
    ∃ L,
      iterTilesRaw mid level1 subsample data_sampler default_merge mosaic depth merge
        = L ++ [((⟨0, 0, 0⟩ : Pos),
            ((merge.resolve default_merge).getD default_merge)
              (mosaic
                (mergedGo mid subsample data_sampler default_merge mosaic
                  (merge.resolve default_merge) ((max depth 1).toNat - 1)
                  (⟨1, 0, 0⟩, level1 0, true))
                (mergedGo mid subsample data_sampler default_merge mosaic
                  (merge.resolve default_merge) ((max depth 1).toNat - 1)
                  (⟨1, 1, 0⟩, level1 1, false))
                (mergedGo mid subsample data_sampler default_merge mosaic
                  (merge.resolve default_merge) ((max depth 1).toNat - 1)
                  (⟨1, 0, 1⟩, level1 3, false))
                (mergedGo mid subsample data_sampler default_merge mosaic
                  (merge.resolve default_merge) ((max depth 1).toNat - 1)
                  (⟨1, 1, 1⟩, level1 2, true))))]
      ∧ ∀ e ∈ L, 1 ≤ e.1.n := by
  have hk : (max depth 1).toNat = ((max depth 1).toNat - 1) + 1 := by omega
  have heq := iterTilesRaw_on mid level1 subsample data_sampler default_merge mosaic
    depth merge hm ((max depth 1).toNat - 1) hk
  rw [if_pos (show depth ≥ (0 : Int) from hd)] at heq
  rw [append_concat_shape] at heq
  refine ⟨_, heq, ?_⟩
  intro e he
  simp only [List.mem_append] at he
  have hn1 : ∀ x y : Nat, ∀ c : Corners P, ∀ f : Bool,
      (((⟨1, x, y⟩ : Pos), c, f) : TileC P).1.n = 1 := fun _ _ _ _ => rfl
  rcases he with he | he | he | he | he | he | he | he
  · have h2 := predEmits_levels e he
    have h3 := hn1 0 0 (level1 0) true
    omega
  · rw [mem_if_singleton he]
  · have h2 := predEmits_levels e he
    have h3 := hn1 1 0 (level1 1) false
    omega
  · rw [mem_if_singleton he]
  · have h2 := predEmits_levels e he
    have h3 := hn1 1 1 (level1 2) true
    omega
  · rw [mem_if_singleton he]
  · have h2 := predEmits_levels e he
    have h3 := hn1 0 1 (level1 3) false
    omega
  · rw [mem_if_singleton he]

/-- A non-merging run within depth also ends with the level-0 tile, produced
by `_default_merge` from the four sampled root images, all earlier emissions
having level at least 1. -/
theorem run_concat_off (mid : P → P → P) (level1 : Fin 4 → Corners P)
    (subsample : P → P → P → P → Nat → Bool → Grid × Grid)
    (data_sampler : Grid → Grid → Img) (default_merge : Img → Img)
    (mosaic : Img → Img → Img → Img → Img)
    (depth : Int) (hd : 0 ≤ depth) :
    ∃ L,
      iterTilesRaw mid level1 subsample data_sampler default_merge mosaic depth .mfalse
        = L ++ [((⟨0, 0, 0⟩ : Pos),
            default_merge
              (mosaic
                (sampleTile subsample data_sampler ((⟨1, 0, 0⟩, level1 0, true) : TileC P))
                (sampleTile subsample data_sampler ((⟨1, 1, 0⟩, level1 1, false) : TileC P))
                (sampleTile subsample data_sampler ((⟨1, 0, 1⟩, level1 3, false) : TileC P))
                (sampleTile subsample data_sampler
                  ((⟨1, 1, 1⟩, level1 2, true) : TileC P))))]
      ∧ ∀ e ∈ L, 1 ≤ e.1.n := by
  have hk : (max depth 1).toNat = ((max depth 1).toNat - 1) + 1 := by omega
  have heq := iterTilesRaw_off mid level1 subsample data_sampler default_merge mosaic
    depth ((max depth 1).toNat - 1) hk
  rw [if_pos (show depth ≥ (0 : Int) from hd)] at heq
  rw [append_concat_shape] at heq
  refine ⟨_, heq, ?_⟩
  intro e he
  simp only [List.mem_append] at he
  rcases he with he | he | he | he | he | he | he | he
  · obtain ⟨q, hq, hqe⟩ := offEmits_mem_fst e he
    have h2 := inner_levels (r := ((⟨1, 0, 0⟩, level1 0, true) : TileC P)) rfl q hq
    rw [hqe]
    omega
  · rw [mem_if_singleton he]
  · obtain ⟨q, hq, hqe⟩ := offEmits_mem_fst e he
    have h2 := inner_levels (r := ((⟨1, 1, 0⟩, level1 1, false) : TileC P)) rfl q hq
    rw [hqe]
    omega
  · rw [mem_if_singleton he]
  · obtain ⟨q, hq, hqe⟩ := offEmits_mem_fst e he
    have h2 := inner_levels (r := ((⟨1, 1, 1⟩, level1 2, true) : TileC P)) rfl q hq
    rw [hqe]
    omega
  · rw [mem_if_singleton he]
  · obtain ⟨q, hq, hqe⟩ := offEmits_mem_fst e he
    have h2 := inner_levels (r := ((⟨1, 0, 1⟩, level1 3, false) : TileC P)) rfl q hq
    rw [hqe]
    omega
  · rw [mem_if_singleton he]

/-- Addresses emitted for one subtree by the merging run (inner emissions,
then the subtree root's own tile) are exactly the addresses of the full
post-order listing of that subtree. -/
theorem predEmits_fst (mid : P → P → P)
    (subsample : P → P → P → P → Nat → Bool → Grid × Grid)
    (data_sampler : Grid → Grid → Img) (default_merge : Img → Img)
    (mosaic : Img → Img → Img → Img → Img) (mrg : Option (Img → Img))
    (depth : Int) :
    ∀ (k : Nat) (t : TileC P), (t.1.n : Int) + k ≤ depth →
      (predEmits mid subsample data_sampler default_merge mosaic mrg depth k t
          ++ emitOne depth t.1
              (mergedGo mid subsample data_sampler default_merge mosaic mrg k t)).map
          (fun e => e.1)
        = (pfxGo mid depth false (k + 1) t).map (fun q => q.1) := by
  intro k
  induction k with
  | zero =>
    intro t ht
    rw [pfxGo_succ, if_pos (Or.inr rfl)]
    have hflat : ∀ i, pfxGo mid depth false 0 (childT mid t i) = [] := fun _ => rfl
    rw [hflat 0, hflat 1, hflat 2, hflat 3]
    rw [predEmits, emitOne, if_pos (by omega : depth ≥ (t.1.n : Int))]
    simp
  | succ k ih =>
    intro t ht
    have hc : ∀ i, i < 4 → ((childT mid t i).1.n : Int) + (k : Int) ≤ depth := by
      intro i hi
      rw [childT_n hi]
      omega
    have h0 := ih (childT mid t 0) (hc 0 (by omega))
    have h1 := ih (childT mid t 1) (hc 1 (by omega))
    have h2 := ih (childT mid t 2) (hc 2 (by omega))
    have h3 := ih (childT mid t 3) (hc 3 (by omega))
    rw [emitOne, if_pos (by omega : depth ≥ (t.1.n : Int)), predEmits]
    rw [pfxGo_succ, if_pos (Or.inr rfl)]
    simp only [List.map_append, List.append_assoc] at h0 h1 h2 h3 ⊢
    rw [← h0, ← h1, ← h2, ← h3]
    simp [List.append_assoc]

/-- Addresses emitted by the non-merging run over a listing within depth are
exactly the listed addresses. -/
theorem offEmits_fst (subsample : P → P → P → P → Nat → Bool → Grid × Grid)
    (data_sampler : Grid → Grid → Img) (depth : Int) :
    ∀ L : List (TileC P), (∀ q ∈ L, depth ≥ (q.1.n : Int)) →
      (offEmits subsample data_sampler depth L).map (fun e => e.1)
        = L.map (fun q => q.1) := by
  intro L
  induction L with
  | nil => intro _; rfl
  | cons t ts ih =>
    intro hL
    have ht : depth ≥ (t.1.n : Int) := hL t (List.mem_cons_self _ _)
    have hoff : offEmits subsample data_sampler depth (t :: ts)
        = (t.1, sampleTile subsample data_sampler t)
            :: offEmits subsample data_sampler depth ts := by
      simp only [offEmits, List.filterMap_cons, ht, if_true]
    rw [hoff, List.map_cons, List.map_cons,
      ih (fun q hq => hL q (List.mem_cons_of_mem _ hq))]

/-- Address sequence of a full merging run at depth `d ≥ 1`: the post-order
full traversal followed by the level-0 root. -/
theorem iterTilesRaw_fst_on (mid : P → P → P) (level1 : Fin 4 → Corners P)
    (subsample : P → P → P → P → Nat → Bool → Grid × Grid)
    (data_sampler : Grid → Grid → Img) (default_merge : Img → Img)
    (mosaic : Img → Img → Img → Img → Img)
    (d : Nat) (hd : 1 ≤ d) (merge : MergeArg Img)
    (hm : (merge.resolve default_merge).isSome = true) :
    (iterTilesRaw mid level1 subsample data_sampler default_merge mosaic (d : Int)
        merge).map (fun e => e.1)
      = (iterCorners mid level1 (d : Int) false).map (fun q => q.1)
          ++ [(⟨0, 0, 0⟩ : Pos)] := by
  obtain ⟨k, hk⟩ : ∃ k, (max (d : Int) 1).toNat = k + 1 := ⟨d - 1, by omega⟩
  have h1 : ((d : Int) ≥ 1) := by omega
  have h0 : ((d : Int) ≥ 0) := by omega
  have hseg : ∀ (x y : Nat) (c : Corners P) (f : Bool),
      (predEmits mid subsample data_sampler default_merge mosaic
          (merge.resolve default_merge) (d : Int) k ((⟨1, x, y⟩ : Pos), c, f)).map
          (fun e => e.1)
        ++ [(⟨1, x, y⟩ : Pos)]
      = (pfxGo mid (d : Int) false (k + 1) ((⟨1, x, y⟩ : Pos), c, f)).map
          (fun q => q.1) := by
    intro x y c f
    have h := predEmits_fst mid subsample data_sampler default_merge mosaic
      (merge.resolve default_merge) (d : Int) k ((⟨1, x, y⟩ : Pos), c, f)
      (by show ((1 : Nat) : Int) + (k : Int) ≤ (d : Int); omega)
    rw [emitOne, if_pos (by show (d : Int) ≥ ((1 : Nat) : Int); omega)] at h
    simp only [List.map_append, List.map_cons, List.map_nil] at h
    exact h
  rw [iterTilesRaw_on mid level1 subsample data_sampler default_merge mosaic (d : Int)
    merge hm k hk]
  rw [if_pos h1, if_pos h1, if_pos h1, if_pos h1, if_pos h0]
  rw [iterCorners_eq]
  have hdt : ((d : Int)).toNat = k + 1 := by omega
  rw [hdt]
  simp only [List.map_append, List.append_assoc, List.map_cons, List.map_nil]
  rw [← hseg 0 0 (level1 0) true, ← hseg 1 0 (level1 1) false,
    ← hseg 1 1 (level1 2) true, ← hseg 0 1 (level1 3) false]
  simp [List.append_assoc]

/-- Address sequence of a full non-merging run at depth `d ≥ 1`: the same
post-order full traversal followed by the same level-0 root. -/
theorem iterTilesRaw_fst_off (mid : P → P → P) (level1 : Fin 4 → Corners P)
    (subsample : P → P → P → P → Nat → Bool → Grid × Grid)
    (data_sampler : Grid → Grid → Img) (default_merge : Img → Img)
    (mosaic : Img → Img → Img → Img → Img)
    (d : Nat) (hd : 1 ≤ d) :
    (iterTilesRaw mid level1 subsample data_sampler default_merge mosaic (d : Int)
        .mfalse).map (fun e => e.1)
      = (iterCorners mid level1 (d : Int) false).map (fun q => q.1)
          ++ [(⟨0, 0, 0⟩ : Pos)] := by
  obtain ⟨k, hk⟩ : ∃ k, (max (d : Int) 1).toNat = k + 1 := ⟨d - 1, by omega⟩
  have h1 : ((d : Int) ≥ 1) := by omega
  have h0 : ((d : Int) ≥ 0) := by omega
  have hbound : ∀ (x y : Nat) (c : Corners P) (f : Bool),
      ∀ q ∈ pfxGo mid (d : Int) false k (childT mid ((⟨1, x, y⟩ : Pos), c, f) 0)
          ++ (pfxGo mid (d : Int) false k (childT mid ((⟨1, x, y⟩ : Pos), c, f) 1)
          ++ (pfxGo mid (d : Int) false k (childT mid ((⟨1, x, y⟩ : Pos), c, f) 2)
          ++ pfxGo mid (d : Int) false k (childT mid ((⟨1, x, y⟩ : Pos), c, f) 3))),
        (d : Int) ≥ (q.1.n : Int) := by
    intro x y c f q hq
    simp only [List.mem_append] at hq
    have hg : ∀ i, i < 4 →
        ((d : Int) + 1 - (((childT mid ((⟨1, x, y⟩ : Pos), c, f) i).1.n : Nat) : Int)).toNat
          = k := by
      intro i hi
      rw [childT_n hi]
      show ((d : Int) + 1 - (((1 : Nat) + 1 : Nat) : Int)).toNat = k
      omega
    rcases hq with hq | hq | hq | hq
    · exact (mem_pfxGo_le (hg 0 (by omega)) hq).1
    · exact (mem_pfxGo_le (hg 1 (by omega)) hq).1
    · exact (mem_pfxGo_le (hg 2 (by omega)) hq).1
    · exact (mem_pfxGo_le (hg 3 (by omega)) hq).1
  rw [iterTilesRaw_off mid level1 subsample data_sampler default_merge mosaic (d : Int)
    k hk]
  have hmax : (max (d : Int) 1) = (d : Int) := by omega
  simp only [hmax]
  rw [if_pos h1, if_pos h1, if_pos h1, if_pos h1, if_pos h0]
  rw [iterCorners_eq]
  have hdt : ((d : Int)).toNat = k + 1 := by omega
  rw [hdt]
  simp only [List.map_append, List.append_assoc, List.map_cons, List.map_nil]
  rw [offEmits_fst subsample data_sampler (d : Int) _ (hbound 0 0 (level1 0) true),
    offEmits_fst subsample data_sampler (d : Int) _ (hbound 1 0 (level1 1) false),
    offEmits_fst subsample data_sampler (d : Int) _ (hbound 1 1 (level1 2) true),
    offEmits_fst subsample data_sampler (d : Int) _ (hbound 0 1 (level1 3) false)]
  simp only [pfxGo_succ]
  simp [List.append_assoc]

/-- Address sequence of a full run at depth `d ≥ 1`, for every merge
setting. -/
theorem iterTilesRaw_fst (mid : P → P → P) (level1 : Fin 4 → Corners P)
    (subsample : P → P → P → P → Nat → Bool → Grid × Grid)
    (data_sampler : Grid → Grid → Img) (default_merge : Img → Img)
    (mosaic : Img → Img → Img → Img → Img)
    (d : Nat) (hd : 1 ≤ d) (merge : MergeArg Img) :
    (iterTilesRaw mid level1 subsample data_sampler default_merge mosaic (d : Int)
        merge).map (fun e => e.1)
      = (iterCorners mid level1 (d : Int) false).map (fun q => q.1)
          ++ [(⟨0, 0, 0⟩ : Pos)] := by
  cases merge with
  | mtrue =>
    exact iterTilesRaw_fst_on mid level1 subsample data_sampler default_merge mosaic
      d hd .mtrue rfl
  | mfalse =>
    exact iterTilesRaw_fst_off mid level1 subsample data_sampler default_merge mosaic
      d hd
  | custom f =>
    exact iterTilesRaw_fst_on mid level1 subsample data_sampler default_merge mosaic
      d hd (.custom f) rfl

/-! ### Claim theorems -/

/-- C5: `_div4` maps a tile with address `(level, x, y)`, corners
`(ul, ur, lr, ll)` and orientation flag `increasing` to exactly four
children, in order, at addresses `(2x,2y)`, `(2x+1,2y)`, `(2x,2y+1)`,
`(2x+1,2y+1)` of level `level+1`, each inheriting `increasing` unchanged,
with corners `(ul,to,ce,le)`, `(to,ur,ri,ce)`, `(le,ce,bo,ll)`,
`(ce,ri,lr,bo)` where `to = mid ul ur`, `ri = mid ur lr`, `bo = mid lr ll`,
`le = mid ll ul`, and `ce = mid ll ur` when `increasing` else `mid ul lr`. -/
theorem claim_C5_subdivision {P : Type} (mid : P → P → P) (pos : Pos)
    (ul ur lr ll : P) (increasing : Bool) :
    div4 mid (pos, (ul, ur, lr, ll), increasing)
      = [ (⟨pos.n + 1, 2 * pos.x, 2 * pos.y⟩,
            (ul, mid ul ur, if increasing then mid ll ur else mid ul lr, mid ll ul),
            increasing),
          (⟨pos.n + 1, 2 * pos.x + 1, 2 * pos.y⟩,
            (mid ul ur, ur, mid ur lr, if increasing then mid ll ur else mid ul lr),
            increasing),
          (⟨pos.n + 1, 2 * pos.x, 2 * pos.y + 1⟩,
            (mid ll ul, if increasing then mid ll ur else mid ul lr, mid lr ll, ll),
            increasing),
          (⟨pos.n + 1, 2 * pos.x + 1, 2 * pos.y + 1⟩,
            (if increasing then mid ll ur else mid ul lr, mid ur lr, lr, mid lr ll),
            increasing) ] := rfl

/-- C7: `_parent` inverts `_div4`: the parent address of each of the four
children of any tile is the tile's own address, and the children's
`(x mod 2, y mod 2)` corner positions are, in order, exactly
`(0,0), (1,0), (0,1), (1,1)` — pairwise distinct and covering `{0,1}²`. -/
theorem claim_C7_parent_child {P : Type} (mid : P → P → P) (t : TileC P) :
    (∀ c ∈ div4 mid t, (parent c.1).1 = t.1)
    ∧ ((div4 mid t).map fun c => ((parent c.1).2.1, (parent c.1).2.2))
        = [(0, 0), (1, 0), (0, 1), (1, 1)] := by
  obtain ⟨⟨n, x, y⟩, ⟨ul, ur, lr, ll⟩, inc⟩ := t
  constructor
  · intro c hc
    simp only [div4, List.mem_cons, List.not_mem_nil, or_false] at hc
    rcases hc with hc | hc | hc | hc <;> subst hc <;>
      · simp only [parent, Pos.mk.injEq]
        refine ⟨by omega, by omega, by omega⟩
  · simp only [div4, List.map_cons, List.map_nil, parent, Prod.mk.injEq,
      List.cons.injEq, and_true]
    refine ⟨⟨by omega, by omega⟩, ⟨by omega, by omega⟩, ⟨by omega, by omega⟩,
      by omega, by omega⟩

/-- Witness for C7 at a concrete tile and child. -/
theorem claim_C7_witness :
    ((⟨2, 2, 0⟩ : Pos), ((), (), (), ()), true) ∈ div4 midW ((⟨1, 1, 0⟩ : Pos), level1W 1, true)
    ∧ (parent ((⟨2, 2, 0⟩ : Pos))).1 = (⟨1, 1, 0⟩ : Pos) :=
  ⟨by decide,
    (claim_C7_parent_child midW ((⟨1, 1, 0⟩ : Pos), level1W 1, true)).1
      ((⟨2, 2, 0⟩ : Pos), ((), (), (), ()), true) (by decide)⟩

/-- C8: the orientation flags of the four root tiles in traversal order are
exactly `[true, false, true, false]`, and at every depth and traversal mode
every emitted node carries the flag of the root face its address descends
from: the root of a node at `(n, x, y)` sits at coordinates
`(x / 2^(n-1), y / 2^(n-1))`, and the flag is `true` exactly on the two roots
with equal coordinates (per the root table). -/
theorem claim_C8_orientation {P : Type} (mid : P → P → P)
    (level1 : Fin 4 → Corners P) :
    (rootTiles level1).map (fun t => t.2.2) = [true, false, true, false]
    ∧ ∀ (depth : Int) (b : Bool), ∀ t ∈ iterCorners mid level1 depth b,
        t.2.2 = decide (t.1.x / 2 ^ (t.1.n - 1) = t.1.y / 2 ^ (t.1.n - 1)) := by
  refine ⟨rfl, ?_⟩
  intro depth b t ht
  exact iterCorners_flag t ht

/-- Witness for C8 at a concrete traversal node. -/
theorem claim_C8_witness :
    ((⟨2, 3, 0⟩ : Pos), ((), (), (), ()), false)
        ∈ iterCorners midW level1W 2 true
    ∧ (((⟨2, 3, 0⟩ : Pos), ((), (), (), ()), false) : TileC Unit).2.2
        = decide ((3 : Nat) / 2 ^ (2 - 1) = (0 : Nat) / 2 ^ (2 - 1)) :=
  ⟨by decide,
    (claim_C8_orientation midW level1W).2 2 true
      ((⟨2, 3, 0⟩ : Pos), ((), (), (), ()), false) (by decide)⟩

/-- C4 (amended): for `max_level < 1` the traversal produces nothing at all —
each root face already has level `1 > max_level`, so `_postfix_corner`
returns immediately and not even the four roots are yielded.  (The claim's
"exactly the four root tiles are produced" is refuted by the
counterexample.) -/
theorem claim_C4_amended {P : Type} (mid : P → P → P)
    (level1 : Fin 4 → Corners P) :
    ∀ depth : Int, depth < 1 → ∀ b : Bool, iterCorners mid level1 depth b = [] := by
  intro depth hd b
  rw [iterCorners_eq]
  have h0 : depth.toNat = 0 := by omega
  rw [h0]
  simp [pfxGo]

/-- Witness for the amended C4. -/
theorem claim_C4_amended_witness :
    (0 : Int) < 1 ∧ iterCorners midW level1W 0 false = [] :=
  ⟨by norm_num, claim_C4_amended midW level1W 0 (by norm_num) false⟩

/-- Counterexample to C4 as stated: at `max_level = 0 < 1` the traversal
yields the empty list — zero tiles, not the four root tiles. -/
theorem claim_C4_counterexample :
    (0 : Int) < 1 ∧ (iterCorners midW level1W 0 false).length = 0
    ∧ (iterCorners midW level1W 0 false).length ≠ 4 := by
  decide

/-- C2 (amended): for depth `d ≥ 1` the bottom-only traversal yields exactly
`4^d` nodes, and the full traversal yields `(4^(d+1) - 4)/3` nodes (levels
`1..d`).  The claim's `(4^(d+1) - 1)/3` counts one node more — the level-0
tile, which `iter_corners` never yields (only `iter_tiles` emits it). -/
theorem claim_C2_amended {P : Type} (mid : P → P → P)
    (level1 : Fin 4 → Corners P) :
    ∀ d : Nat, 1 ≤ d →
      (iterCorners mid level1 (d : Int) true).length = 4 ^ d
      ∧ (iterCorners mid level1 (d : Int) false).length = (4 ^ (d + 1) - 4) / 3 := by
  intro d hd
  refine ⟨length_iterCorners_bottom mid level1 hd, ?_⟩
  have h3 := length_iterCorners_full mid level1 hd
  omega

/-- Witness for the amended C2 at depth 1. -/
theorem claim_C2_amended_witness :
    (1 : Nat) ≤ 1
    ∧ (iterCorners midW level1W ((1 : Nat) : Int) true).length = 4 ^ 1
    ∧ (iterCorners midW level1W ((1 : Nat) : Int) false).length = (4 ^ (1 + 1) - 4) / 3 :=
  ⟨by norm_num, claim_C2_amended midW level1W 1 (by norm_num)⟩

/-- Counterexample to C2 as stated: at `d = 1` the full traversal has 4
nodes, but the claimed formula `(4^(d+1) - 1)/3` evaluates to 5. -/
theorem claim_C2_counterexample :
    ¬ ((iterCorners midW level1W ((1 : Nat) : Int) true).length = 4 ^ (1 : Nat)
      ∧ (iterCorners midW level1W ((1 : Nat) : Int) false).length
          = (4 ^ ((1 : Nat) + 1) - 1) / 3) := by
  decide

/-- C9: over every full `iter_tiles` run — any depth, any merge setting —
every accumulator state observed between absorb steps has total pending
images at most `4 * max(depth, 1)` (the source's assertion bound), and every
pending-parent entry holds at most 3 images: an entry that reaches 4 images
is popped and merged within the same absorb step, so it is never observable,
which is the claimed atomic removal. -/
theorem claim_C9_accumulator (mid : P → P → P) (level1 : Fin 4 → Corners P)
    (subsample : P → P → P → P → Nat → Bool → Grid × Grid)
    (data_sampler : Grid → Grid → Img) (default_merge : Img → Img)
    (mosaic : Img → Img → Img → Img → Img)
    (depth : Int) (merge : MergeArg Img) :
    ∀ S ∈ iterTilesStates mid level1 subsample data_sampler default_merge mosaic
        depth merge,
      (∀ e ∈ S, e.2.size ≤ 3) ∧ ((countA S : Int) ≤ 4 * max depth 1) := by
  obtain ⟨k, hk⟩ : ∃ k, (max depth 1).toNat = k + 1 :=
    ⟨(max depth 1).toNat - 1, by omega⟩
  intro S hS
  cases merge with
  | mtrue =>
    simp only [iterTilesStates, MergeArg.resolve, Option.isSome_some] at hS
    obtain ⟨h1, h2⟩ := states_run_on_bound mid level1 subsample data_sampler
      default_merge mosaic (some default_merge) rfl depth k hk S hS
    exact ⟨h1, by omega⟩
  | mfalse =>
    simp only [iterTilesStates, MergeArg.resolve, Option.isSome_none] at hS
    obtain ⟨h1, h2⟩ := states_run_off_bound mid level1 subsample data_sampler
      default_merge mosaic depth k hk S hS
    exact ⟨h1, by omega⟩
  | custom f =>
    simp only [iterTilesStates, MergeArg.resolve, Option.isSome_some] at hS
    obtain ⟨h1, h2⟩ := states_run_on_bound mid level1 subsample data_sampler
      default_merge mosaic (some f) rfl depth k hk S hS
    exact ⟨h1, by omega⟩

/-- Witness for C9: the accumulator state after the first absorb step of the
depth-1 merging run holds the first root image pending under the level-0
parent. -/
theorem claim_C9_witness :
    [((⟨0, 0, 0⟩ : Pos), (⟨some 7, none, none, none⟩ : CMap Nat))]
        ∈ iterTilesStates midW level1W subsampleW dataSamplerW defaultMergeW mosaicW
            1 .mtrue
    ∧ ((∀ e ∈ [((⟨0, 0, 0⟩ : Pos), (⟨some 7, none, none, none⟩ : CMap Nat))],
          e.2.size ≤ 3)
       ∧ ((countA [((⟨0, 0, 0⟩ : Pos), (⟨some 7, none, none, none⟩ : CMap Nat))] : Int)
          ≤ 4 * max 1 1)) :=
  ⟨by decide,
    claim_C9_accumulator midW level1W subsampleW dataSamplerW defaultMergeW mosaicW
      1 .mtrue
      [((⟨0, 0, 0⟩ : Pos), (⟨some 7, none, none, none⟩ : CMap Nat))] (by decide)⟩

/-- C3: at `depth = 0` — merge `True`, `False`, or a custom reducer — the run
yields exactly one `(path, image)` pair: the level-0 tile `0/0/0_0.png`,
whose image reduces the 2×2 mosaic of the four sampled root faces (mosaic
order `ul, ur, bl, br` = roots 0, 1, 3, 2); the reducer falls back to
`_default_merge` in both the `True` and the `False` setting.  Neither zero
nor four tiles are emitted. -/
theorem claim_C3_depth0 (mid : P → P → P) (level1 : Fin 4 → Corners P)
    (subsample : P → P → P → P → Nat → Bool → Grid × Grid)
    (data_sampler : Grid → Grid → Img) (default_merge : Img → Img)
    (mosaic : Img → Img → Img → Img → Img) :
    ∀ merge : MergeArg Img,
      iterTiles mid level1 subsample data_sampler default_merge mosaic 0 merge
        = [("0/0/0_0.png",
            ((merge.resolve default_merge).getD default_merge)
              (mosaic
                (sampleTile subsample data_sampler ((⟨1, 0, 0⟩ : Pos), level1 0, true))
                (sampleTile subsample data_sampler ((⟨1, 1, 0⟩ : Pos), level1 1, false))
                (sampleTile subsample data_sampler ((⟨1, 0, 1⟩ : Pos), level1 3, false))
                (sampleTile subsample data_sampler
                  ((⟨1, 1, 1⟩ : Pos), level1 2, true))))] := by
  have hk : (max (0 : Int) 1).toNat = 0 + 1 := by decide
  have hts : tilePath ⟨0, 0, 0⟩ = "0/0/0_0.png" := by decide
  have h1 : ¬ ((0 : Int) ≥ 1) := by norm_num
  have h0 : (0 : Int) ≥ 0 := le_refl 0
  intro merge
  cases merge with
  | mtrue =>
    simp only [iterTiles]
    rw [iterTilesRaw_on mid level1 subsample data_sampler default_merge mosaic 0 .mtrue
      rfl 0 hk]
    simp only [predEmits, mergedGo, MergeArg.resolve, Option.getD_some, if_neg h1,
      if_pos h0, List.nil_append, List.map_cons, List.map_nil, hts]
  | mfalse =>
    simp only [iterTiles]
    rw [iterTilesRaw_off mid level1 subsample data_sampler default_merge mosaic 0 0 hk]
    simp only [pfxGo, offEmits, List.filterMap_nil, List.append_nil, MergeArg.resolve,
      Option.getD_none, if_neg h1, if_pos h0, List.nil_append, List.map_cons,
      List.map_nil, hts]
  | custom f =>
    simp only [iterTiles]
    rw [iterTilesRaw_on mid level1 subsample data_sampler default_merge mosaic 0
      (.custom f) rfl 0 hk]
    simp only [predEmits, mergedGo, MergeArg.resolve, Option.getD_some, if_neg h1,
      if_pos h0, List.nil_append, List.map_cons, List.map_nil, hts]

/-- C1 (amended): in every run with `depth ≥ 0` the four root images ARE
merged into a single level-0 parent: the output ends with exactly one
level-0 tile, and every earlier output has level at least 1.  With a truthy
`merge` (both `True` and a custom reducer) the level-0 image applies the
active reducer to the 2×2 mosaic of the four roots' recursively merged
subtree images, in mosaic order `ul, ur, bl, br` = roots `0, 1, 3, 2`; with
`merge = False` it applies `_default_merge` to the 2×2 mosaic of the four
roots' directly sampled images, in the same order.  (The claim's "no
level-0 tile is ever produced" is refuted by the counterexample.) -/
theorem claim_C1_amended (mid : P → P → P) (level1 : Fin 4 → Corners P)
    (subsample : P → P → P → P → Nat → Bool → Grid × Grid)
    (data_sampler : Grid → Grid → Img) (default_merge : Img → Img)
    (mosaic : Img → Img → Img → Img → Img)
    (depth : Int) (hd : 0 ≤ depth) :
    (∀ merge : MergeArg Img, (merge.resolve default_merge).isSome = true →
      ∃ L,
        iterTilesRaw mid level1 subsample data_sampler default_merge mosaic depth merge
          = L ++ [((⟨0, 0, 0⟩ : Pos),
              ((merge.resolve default_merge).getD default_merge)
                (mosaic
                  (mergedGo mid subsample data_sampler default_merge mosaic
                    (merge.resolve default_merge) ((max depth 1).toNat - 1)
                    (⟨1, 0, 0⟩, level1 0, true))
                  (mergedGo mid subsample data_sampler default_merge mosaic
                    (merge.resolve default_merge) ((max depth 1).toNat - 1)
                    (⟨1, 1, 0⟩, level1 1, false))
                  (mergedGo mid subsample data_sampler default_merge mosaic
                    (merge.resolve default_merge) ((max depth 1).toNat - 1)
                    (⟨1, 0, 1⟩, level1 3, false))
                  (mergedGo mid subsample data_sampler default_merge mosaic
                    (merge.resolve default_merge) ((max depth 1).toNat - 1)
                    (⟨1, 1, 1⟩, level1 2, true))))]
        ∧ ∀ e ∈ L, 1 ≤ e.1.n)
    ∧ (∃ L,
        iterTilesRaw mid level1 subsample data_sampler default_merge mosaic depth
            .mfalse
          = L ++ [((⟨0, 0, 0⟩ : Pos),
              default_merge
                (mosaic
                  (sampleTile subsample data_sampler ((⟨1, 0, 0⟩, level1 0, true) : TileC P))
                  (sampleTile subsample data_sampler ((⟨1, 1, 0⟩, level1 1, false) : TileC P))
                  (sampleTile subsample data_sampler ((⟨1, 0, 1⟩, level1 3, false) : TileC P))
                  (sampleTile subsample data_sampler
                    ((⟨1, 1, 1⟩, level1 2, true) : TileC P))))]
        ∧ ∀ e ∈ L, 1 ≤ e.1.n) :=
  ⟨fun merge hm => run_concat_on mid level1 subsample data_sampler default_merge mosaic
      depth hd merge hm,
    run_concat_off mid level1 subsample data_sampler default_merge mosaic depth hd⟩

/-- Witness for the amended C1 at depth 1. -/
theorem claim_C1_witness :
    (0 : Int) ≤ 1
    ∧ ((∀ merge : MergeArg Nat, (merge.resolve defaultMergeW).isSome = true →
        ∃ L,
          iterTilesRaw midW level1W subsampleW dataSamplerW defaultMergeW mosaicW 1 merge
            = L ++ [((⟨0, 0, 0⟩ : Pos),
                ((merge.resolve defaultMergeW).getD defaultMergeW)
                  (mosaicW
                    (mergedGo midW subsampleW dataSamplerW defaultMergeW mosaicW
                      (merge.resolve defaultMergeW) ((max (1 : Int) 1).toNat - 1)
                      (⟨1, 0, 0⟩, level1W 0, true))
                    (mergedGo midW subsampleW dataSamplerW defaultMergeW mosaicW
                      (merge.resolve defaultMergeW) ((max (1 : Int) 1).toNat - 1)
                      (⟨1, 1, 0⟩, level1W 1, false))
                    (mergedGo midW subsampleW dataSamplerW defaultMergeW mosaicW
                      (merge.resolve defaultMergeW) ((max (1 : Int) 1).toNat - 1)
                      (⟨1, 0, 1⟩, level1W 3, false))
                    (mergedGo midW subsampleW dataSamplerW defaultMergeW mosaicW
                      (merge.resolve defaultMergeW) ((max (1 : Int) 1).toNat - 1)
                      (⟨1, 1, 1⟩, level1W 2, true))))]
          ∧ ∀ e ∈ L, 1 ≤ e.1.n)
      ∧ (∃ L,
          iterTilesRaw midW level1W subsampleW dataSamplerW defaultMergeW mosaicW 1
              .mfalse
            = L ++ [((⟨0, 0, 0⟩ : Pos),
                defaultMergeW
                  (mosaicW
                    (sampleTile subsampleW dataSamplerW
                      ((⟨1, 0, 0⟩, level1W 0, true) : TileC Unit))
                    (sampleTile subsampleW dataSamplerW
                      ((⟨1, 1, 0⟩, level1W 1, false) : TileC Unit))
                    (sampleTile subsampleW dataSamplerW
                      ((⟨1, 0, 1⟩, level1W 3, false) : TileC Unit))
                    (sampleTile subsampleW dataSamplerW
                      ((⟨1, 1, 1⟩, level1W 2, true) : TileC Unit))))]
          ∧ ∀ e ∈ L, 1 ≤ e.1.n)) :=
  ⟨by norm_num,
    claim_C1_amended midW level1W subsampleW dataSamplerW defaultMergeW mosaicW 1
      (by norm_num)⟩

/-- Counterexample to C1 as stated: the depth-1 merging run does emit a
level-0 tile — the path `0/0/0_0.png` appears in its output. -/
theorem claim_C1_counterexample :
    "0/0/0_0.png" ∈ (iterTiles midW level1W subsampleW dataSamplerW defaultMergeW
        mosaicW 1 .mtrue).map Prod.fst := by
  decide

/-- C10: at every depth `d ≥ 1` and for every sampler, `iter_tiles` yields
exactly `(4^(d+1) - 1)/3 = depth2tiles d` pairs — one per valid address of
levels `0..d`, including a single level-0 tile at path `0/0/0_0.png` — and
the path sequence is the same for every merge setting (only images may
differ); with `merge = False` the level-0 tile is still produced, by
applying `_default_merge` to the 2×2 mosaic of the four sampled level-1 root
images. -/
theorem claim_C10_refinement (mid : P → P → P) (level1 : Fin 4 → Corners P)
    (subsample : P → P → P → P → Nat → Bool → Grid × Grid)
    (data_sampler : Grid → Grid → Img) (default_merge : Img → Img)
    (mosaic : Img → Img → Img → Img → Img)
    (d : Nat) (hd : 1 ≤ d) (merge : MergeArg Img) :
    (iterTiles mid level1 subsample data_sampler default_merge mosaic (d : Int)
        merge).length = depth2tiles d
    ∧ (iterTiles mid level1 subsample data_sampler default_merge mosaic (d : Int)
          merge).map Prod.fst
        = (iterTiles mid level1 subsample data_sampler default_merge mosaic (d : Int)
            .mfalse).map Prod.fst
    ∧ "0/0/0_0.png" ∈ (iterTiles mid level1 subsample data_sampler default_merge mosaic
          (d : Int) merge).map Prod.fst
    ∧ (∀ q : Pos,
        ((iterTilesRaw mid level1 subsample data_sampler default_merge mosaic (d : Int)
            merge).map (fun e => e.1)).count q
          = if (q.n ≤ d ∧ q.x < 2 ^ q.n ∧ q.y < 2 ^ q.n) then 1 else 0)
    ∧ ∃ L,
        iterTilesRaw mid level1 subsample data_sampler default_merge mosaic (d : Int)
            .mfalse
          = L ++ [((⟨0, 0, 0⟩ : Pos),
              default_merge
                (mosaic
                  (sampleTile subsample data_sampler ((⟨1, 0, 0⟩, level1 0, true) : TileC P))
                  (sampleTile subsample data_sampler ((⟨1, 1, 0⟩, level1 1, false) : TileC P))
                  (sampleTile subsample data_sampler ((⟨1, 0, 1⟩, level1 3, false) : TileC P))
                  (sampleTile subsample data_sampler
                    ((⟨1, 1, 1⟩, level1 2, true) : TileC P))))] := by
  have hfst := iterTilesRaw_fst mid level1 subsample data_sampler default_merge mosaic
    d hd merge
  have hmap : ∀ m : MergeArg Img,
      (iterTiles mid level1 subsample data_sampler default_merge mosaic (d : Int) m).map
          Prod.fst
        = ((iterTilesRaw mid level1 subsample data_sampler default_merge mosaic (d : Int)
            m).map (fun e => e.1)).map tilePath := by
    intro m
    simp only [iterTiles, List.map_map]
    rfl
  have hts : tilePath ⟨0, 0, 0⟩ = "0/0/0_0.png" := by decide
  have hD : (1 : Int) ≤ (d : Int) := by omega
  refine ⟨?_, ?_, ?_, ?_, ?_⟩
  · have hlen : (iterTiles mid level1 subsample data_sampler default_merge mosaic
        (d : Int) merge).length
        = ((iterTilesRaw mid level1 subsample data_sampler default_merge mosaic (d : Int)
            merge).map (fun e => e.1)).length := by
      simp [iterTiles]
    rw [hlen, hfst]
    have h3 := length_iterCorners_full mid level1 hd
    have h4 : (4 : Nat) ^ 1 ≤ 4 ^ (d + 1) := Nat.pow_le_pow_right (by omega) (by omega)
    simp only [List.length_append, List.length_map, List.length_cons,
      List.length_nil, depth2tiles]
    omega
  · rw [hmap merge, hmap .mfalse, hfst,
      iterTilesRaw_fst mid level1 subsample data_sampler default_merge mosaic d hd
        .mfalse]
  · rw [hmap merge, hfst, ← hts]
    exact List.mem_map_of_mem _ (List.mem_append_right _ (List.mem_singleton_self _))
  · intro q
    rw [hfst, List.count_append, count_iterCorners_full hD q, List.count_singleton']
    by_cases h0 : q = ⟨0, 0, 0⟩
    · subst h0
      rw [if_neg (by simp), if_pos rfl,
        if_pos (show (⟨0, 0, 0⟩ : Pos).n ≤ d ∧ (⟨0, 0, 0⟩ : Pos).x < 2 ^ (⟨0, 0, 0⟩ : Pos).n
            ∧ (⟨0, 0, 0⟩ : Pos).y < 2 ^ (⟨0, 0, 0⟩ : Pos).n
          from ⟨Nat.zero_le _, by norm_num, by norm_num⟩)]
    · rw [if_neg (fun hc : (⟨0, 0, 0⟩ : Pos) = q => h0 hc.symm)]
      by_cases hn : 1 ≤ q.n
      · by_cases hv : q.n ≤ d ∧ q.x < 2 ^ q.n ∧ q.y < 2 ^ q.n
        · rw [if_pos ⟨hn, by exact_mod_cast hv.1, hv.2.1, hv.2.2⟩, if_pos hv]
        · rw [if_neg (fun hc => hv ⟨by exact_mod_cast hc.2.1, hc.2.2.1, hc.2.2.2⟩),
            if_neg hv]
      · obtain ⟨n, x, y⟩ := q
        have hn' : ¬ (1 : Nat) ≤ n := hn
        have hn0 : n = 0 := by omega
        subst hn0
        dsimp only
        rw [if_neg (fun hc => absurd hc.1 (by omega : ¬ ((1 : Nat) ≤ 0)))]
        rw [if_neg (fun hc => h0 (by
          rw [Pos.mk.injEq]
          have hx := hc.2.1
          have hy := hc.2.2
          rw [pow_zero] at hx hy
          exact ⟨rfl, by omega, by omega⟩))]
  · obtain ⟨L, h1, _⟩ := run_concat_off mid level1 subsample data_sampler default_merge
      mosaic (d : Int) (by omega)
    exact ⟨L, h1⟩

/-- Witness for C10 at depth 1 with merge enabled. -/
theorem claim_C10_witness :
    (1 : Nat) ≤ 1
    ∧ ((iterTiles midW level1W subsampleW dataSamplerW defaultMergeW mosaicW
          ((1 : Nat) : Int) .mtrue).length = depth2tiles 1
      ∧ (iterTiles midW level1W subsampleW dataSamplerW defaultMergeW mosaicW
            ((1 : Nat) : Int) .mtrue).map Prod.fst
          = (iterTiles midW level1W subsampleW dataSamplerW defaultMergeW mosaicW
              ((1 : Nat) : Int) .mfalse).map Prod.fst
      ∧ "0/0/0_0.png" ∈ (iterTiles midW level1W subsampleW dataSamplerW defaultMergeW
            mosaicW ((1 : Nat) : Int) .mtrue).map Prod.fst
      ∧ (∀ q : Pos,
          ((iterTilesRaw midW level1W subsampleW dataSamplerW defaultMergeW mosaicW
              ((1 : Nat) : Int) .mtrue).map (fun e => e.1)).count q
            = if (q.n ≤ 1 ∧ q.x < 2 ^ q.n ∧ q.y < 2 ^ q.n) then 1 else 0)
      ∧ ∃ L,
          iterTilesRaw midW level1W subsampleW dataSamplerW defaultMergeW mosaicW
              ((1 : Nat) : Int) .mfalse
            = L ++ [((⟨0, 0, 0⟩ : Pos),
                defaultMergeW
                  (mosaicW
                    (sampleTile subsampleW dataSamplerW
                      ((⟨1, 0, 0⟩, level1W 0, true) : TileC Unit))
                    (sampleTile subsampleW dataSamplerW
                      ((⟨1, 1, 0⟩, level1W 1, false) : TileC Unit))
                    (sampleTile subsampleW dataSamplerW
                      ((⟨1, 0, 1⟩, level1W 3, false) : TileC Unit))
                    (sampleTile subsampleW dataSamplerW
                      ((⟨1, 1, 1⟩, level1W 2, true) : TileC Unit))))]) :=
  ⟨by norm_num,
    claim_C10_refinement midW level1W subsampleW dataSamplerW defaultMergeW mosaicW 1
      (by norm_num) .mtrue⟩

end Toasty
